import Mathlib

/-!
Shallow embedding of the Solarflare EF10 transmit datapath
(drivers/net/sfc/sfc_ef10_tx.c) and proofs about its claims.

Machine integers: the queue counters (added, completed, evq_read_ptr) are
C unsigned int values; they are embedded as Nat with every update reduced
modulo 2 to the 32, and C unsigned subtraction embedded as usub below.
Hardware rings are embedded as functions from Nat to ring words, indexed
by position land ptr_mask exactly as the C code does.

Fields of hardware words (event code, descriptor index, descriptor
layout) and constants coming from headers that are not part of this
repository snapshot (efx_regs_ef10.h, sfc_ef10.h, sfc_tweak.h) are
modelled from the spec; each such definition carries a comment saying so.
-/

namespace SfcEf10

/-- 2 to the 32, the modulus of C unsigned int arithmetic. -/
def M : Nat := 4294967296

/-- Reduction of a Nat into the unsigned int range, as C assignment does. -/
def u32 (x : Nat) : Nat := x % M

/-- C unsigned int subtraction a - b, i.e. subtraction modulo 2 to the 32. -/
def usub (a b : Nat) : Nat := (a + (M - b % M)) % M

/-! Constants of sfc_ef10_tx.c. Widths that come from headers outside this
repository snapshot are modelled from the spec, as noted. -/

/-- Modelled from the spec: events per cache line, from sfc_ef10.h which is
not in the source tree; a 64 byte cache line holds eight 8 byte events. -/
def SFC_EF10_EV_PER_CACHE_LINE : Nat := 8

/-- Maximum length of an mbuf segment: data_len is a 16 bit field. -/
def SFC_MBUF_SEG_LEN_MAX : Nat := 65535

/-- Modelled from the spec: width of the descriptor byte count field
(ESF_DZ_TX_KER_BYTE_CNT_WIDTH from efx_regs_ef10.h, not in the source
tree) is 14 bits; the spec calls it the maximum descriptor length. -/
def SFC_EF10_TX_DMA_DESC_LEN_MAX : Nat := 2 ^ 14 - 1

/-- Maximum number of DMA descriptors per mbuf segment, as in the C macro:
the segment length bound divided by the descriptor length bound, rounded
up. -/
def SFC_EF10_TX_MBUF_SEG_DESCS_MAX : Nat :=
  (SFC_MBUF_SEG_LEN_MAX + SFC_EF10_TX_DMA_DESC_LEN_MAX - 1) /
    SFC_EF10_TX_DMA_DESC_LEN_MAX

/-- Ring capacity usable by the producer, exactly the C macro
SFC_EF10_TXQ_LIMIT: ndesc - 1 - (events per cache line - 1) - 1 - 1, with
every subtraction being C unsigned subtraction. -/
def SFC_EF10_TXQ_LIMIT (ndesc : Nat) : Nat :=
  usub (usub (usub (usub ndesc 1) (SFC_EF10_EV_PER_CACHE_LINE - 1)) 1) 1

def SFC_EF10_TXQ_STARTED : Nat := 1

def SFC_EF10_TXQ_NOT_RUNNING : Nat := 2

def SFC_EF10_TXQ_EXCEPTION : Nat := 4

/-- One mbuf segment: DMA address and data length. -/
structure Seg where
  addr : Nat
  len : Nat

deriving DecidableEq, Repr

/-- A packet is its chain of segments; a well formed mbuf has at least one
segment, nb_segs equal to the chain length and pkt_len equal to the sum
of the segment lengths. -/
abbrev Pkt := List Seg

/-- Total packet length, the pkt_len field of a well formed mbuf. -/
def pktLen (p : Pkt) : Nat := (p.map Seg.len).sum

/-- The absent event ring word: event ring entries are cleared to all
ones, and an all ones entry is not present. Modelled from the spec
presence marker and the sfc_ef10.h helpers outside the source tree. -/
def EV_ABSENT : Nat := 2 ^ 64 - 1

/-- Modelled from the spec: presence of an event ring entry; an entry is
present unless it still holds the cleared all ones pattern. -/
def sfc_ef10_ev_present (ev : Nat) : Bool := ev ≠ EV_ABSENT

/-- Modelled from the spec: the event type tag field FSF_AZ_EV_CODE, a
4 bit field in the top bits of the event word. -/
def FSF_AZ_EV_CODE (ev : Nat) : Nat := (ev >>> 60) % 16

/-- The transmit completion event type tag. -/
def FSE_AZ_EV_CODE_TX_EV : Nat := 0

/-- Modelled from the spec: the reported last completed descriptor index
field ESF_DZ_TX_DESCR_INDX, a 16 bit field in the low bits. -/
def ESF_DZ_TX_DESCR_INDX (ev : Nat) : Nat := ev % (2 ^ 16)

/-- Modelled from the spec: the fixed bit layout of a transmit DMA
descriptor (efx_regs_ef10.h is not in the source tree): type tag in bit
63 (always zero), continuation flag in bit 62, byte count in bits 48 to
61, buffer address in bits 0 to 47. The byte count argument is truncated
to its field width as the C field packing macro does. -/
def sfc_ef10_tx_qdesc_dma_create (addr size : Nat) (eop : Bool) : Nat :=
  (addr % 2 ^ 48) ||| (size % 2 ^ 14) <<< 48 ||| (if eop then 0 else 1) <<< 62

def descAddr (d : Nat) : Nat := d % 2 ^ 48

def descByteCnt (d : Nat) : Nat := (d >>> 48) % 2 ^ 14

def descCont (d : Nat) : Nat := (d >>> 62) % 2

def descTypeTag (d : Nat) : Nat := (d >>> 63) % 2

/-- Pointwise update of a ring function. -/
def upd {α : Type} (f : Nat → α) (i : Nat) (v : α) : Nat → α :=
  fun j => if j = i then v else f j

/-- The transmit queue state of struct sfc_ef10_txq. The four trailing
fields are observation logs (ghost state): descriptor words written to
the hardware ring, shadow ring assignments, doorbell writes, and buffers
released back to the allocator. They record what the C code does at its
volatile or external boundaries and feed back into nothing. -/
structure Txq where
  flags : Nat
  ptr_mask : Nat
  added : Nat
  completed : Nat
  free_thresh : Nat
  evq_read_ptr : Nat
  sw_ring : Nat → Option Pkt
  txq_hw_ring : Nat → Nat
  evq_hw_ring : Nat → Nat
  dlog : List (Nat × Nat)
  slog : List (Nat × Pkt)
  dbell : List (Nat × Nat)
  freed : List Pkt

/-- sfc_ef10_tx_get_event: reads the event ring at the read pointer.
Returns the C result (whether a transmit event was consumed), the state
(the read pointer advances past a consumed event; a present event of a
foreign type sets the exception flag and the pointer stays), and the
event word read. -/
def sfc_ef10_tx_get_event (txq : Txq) : Bool × Txq × Nat :=
  let tx_ev := txq.evq_hw_ring (txq.evq_read_ptr &&& txq.ptr_mask)
  if sfc_ef10_ev_present tx_ev = false then
    (false, txq, tx_ev)
  else if FSF_AZ_EV_CODE tx_ev ≠ FSE_AZ_EV_CODE_TX_EV then
    (false, { txq with flags := txq.flags ||| SFC_EF10_TXQ_EXCEPTION }, tx_ev)
  else
    (true, { txq with evq_read_ptr := u32 (txq.evq_read_ptr + 1) }, tx_ev)

/-- The polling loop of sfc_ef10_tx_reap; anew_done tracks the latest
reported done descriptor index. Fuel bounds the number of iterations; the
C loop runs forever exactly when every ring slot holds a present transmit
event, and in that case the embedding returns none. -/
def reapLoop : Nat → Txq → Nat → Option (Txq × Nat)
  | 0, _, _ => none
  | fuel + 1, txq, anew_done =>
    match sfc_ef10_tx_get_event txq with
    | (false, txq1, _) => some (txq1, anew_done)
    | (true, txq1, tx_ev) => reapLoop fuel txq1 (ESF_DZ_TX_DESCR_INDX tx_ev)

/-- The buffer release loop of sfc_ef10_tx_reap: n slots starting at
counter value completed have their shadow entry freed and cleared. -/
def freeRange : Nat → Nat → Txq → Txq
  | 0, _, txq => txq
  | n + 1, completed, txq =>
    let i := completed &&& txq.ptr_mask
    let txq1 :=
      match txq.sw_ring i with
      | some m =>
        { txq with sw_ring := upd txq.sw_ring i none, freed := txq.freed ++ [m] }
      | none => txq
    freeRange n (u32 (completed + 1)) txq1

/-- Modelled from the spec: sfc_ef10_ev_qclear (from sfc_ef10.h, not in
the source tree) marks the event ring slots from the old read position up
to but excluding the new one as available again by writing the all ones
pattern. -/
def qclearLoop : Nat → Nat → Nat → (Nat → Nat) → (Nat → Nat)
  | 0, _, _, ring => ring
  | n + 1, ptr, mask, ring =>
    qclearLoop n (u32 (ptr + 1)) mask (upd ring (ptr &&& mask) EV_ABSENT)

def sfc_ef10_ev_qclear (ring : Nat → Nat) (mask old_ptr new_ptr : Nat) : Nat → Nat :=
  qclearLoop (usub new_ptr old_ptr) old_ptr mask ring

/-- sfc_ef10_tx_reap: poll completions, release the newly completed range
of shadow buffers, and clear the consumed event ring range. -/
def sfc_ef10_tx_reap (txq : Txq) : Option Txq :=
  let old_read_ptr := txq.evq_read_ptr
  let completed := txq.completed
  let curr_done := usub completed 1
  match reapLoop (txq.ptr_mask + 2) txq curr_done with
  | none => none
  | some (txq1, anew_done) =>
    let pending := u32 (completed + ((usub anew_done curr_done) &&& txq1.ptr_mask))
    let txq2 :=
      if pending ≠ completed then
        { freeRange (usub pending completed) completed txq1 with completed := pending }
      else txq1
    some { txq2 with
            evq_hw_ring :=
              sfc_ef10_ev_qclear txq2.evq_hw_ring txq2.ptr_mask old_read_ptr
                txq2.evq_read_ptr }

/-- sfc_ef10_tx_qpush: the doorbell write. The observable effect is the
write of the wrapped producer pointer together with a copy of the last
pushed descriptor word to the doorbell register, recorded in the dbell
log. -/
def sfc_ef10_tx_qpush (txq : Txq) (added pushed : Nat) : Txq :=
  { txq with
      dbell :=
        txq.dbell ++
          [(added &&& txq.ptr_mask, txq.txq_hw_ring (pushed &&& txq.ptr_mask))] }

/-- The per packet descriptor writing loop (the inner do while of
sfc_ef10_xmit_pkts): one descriptor per segment, end of packet flag set
when the running pkt_len reaches zero. Returns the state and the new
producer counter. -/
def writeSegs : List Seg → Nat → Nat → Txq → Txq × Nat
  | [], _, added, txq => (txq, added)
  | sg :: rest, pkt_len, added, txq =>
    let rem := usub pkt_len sg.len
    let desc := sfc_ef10_tx_qdesc_dma_create sg.addr sg.len (rem = 0)
    let i := added &&& txq.ptr_mask
    let txq1 :=
      { txq with txq_hw_ring := upd txq.txq_hw_ring i desc,
                 dlog := txq.dlog ++ [(i, desc)] }
    writeSegs rest rem (u32 (added + 1)) txq1

/-- Attach buffer ownership to a shadow ring slot (recorded in the slog
observation log as well). -/
def setShadow (txq : Txq) (i : Nat) (p : Pkt) : Txq :=
  { txq with sw_ring := upd txq.sw_ring i (some p), slog := txq.slog ++ [(i, p)] }

/-- Result of the packet admission loop: final state, local producer
counter, whether a reap happened this call, and packets accepted. -/
structure LoopOut where
  txq : Txq
  added : Nat
  reap_done : Bool
  count : Nat

/-- The packet admission loop of sfc_ef10_xmit_pkts, one iteration per
packet, stopping at the first packet that does not fit. -/
def xmitLoop : List Pkt → Txq → Nat → Nat → Bool → Option LoopOut
  | [], txq, added, _, rd => some ⟨txq, added, rd, 0⟩
  | p :: ps, txq, added, space, rd =>
    if p.length * SFC_EF10_TX_MBUF_SEG_DESCS_MAX > space then
      if rd then some ⟨txq, added, rd, 0⟩
      else
        let txq1 :=
          if added ≠ txq.added then
            { sfc_ef10_tx_qpush txq added txq.added with added := added }
          else txq
        match sfc_ef10_tx_reap txq1 with
        | none => none
        | some txq2 =>
          let space2 := usub (SFC_EF10_TXQ_LIMIT (txq2.ptr_mask + 1))
              (usub added txq2.completed)
          if p.length * SFC_EF10_TX_MBUF_SEG_DESCS_MAX > space2 then
            some ⟨txq2, added, true, 0⟩
          else
            let r := writeSegs p (u32 (pktLen p)) added txq2
            let txq3 := setShadow r.1 (usub r.2 1 &&& r.1.ptr_mask) p
            match xmitLoop ps txq3 r.2 (usub space2 (usub r.2 added)) true with
            | none => none
            | some o => some ⟨o.txq, o.added, o.reap_done, o.count + 1⟩
    else
      let r := writeSegs p (u32 (pktLen p)) added txq
      let txq3 := setShadow r.1 (usub r.2 1 &&& r.1.ptr_mask) p
      match xmitLoop ps txq3 r.2 (usub space (usub r.2 added)) rd with
      | none => none
      | some o => some ⟨o.txq, o.added, o.reap_done, o.count + 1⟩

/-- Modelled from the spec: the build time reap tweak of sfc_tweak.h (not
in the source tree), disabled by default. -/
def SFC_TX_XMIT_PKTS_REAP_AT_LEAST_ONCE : Bool := false

/-- sfc_ef10_xmit_pkts: the burst transmit entry point. Returns none only
on the impossible event ring that makes the C polling loop diverge. -/
def sfc_ef10_xmit_pkts (txq : Txq) (pkts : List Pkt) : Option (Txq × Nat) :=
  if txq.flags &&& (SFC_EF10_TXQ_NOT_RUNNING ||| SFC_EF10_TXQ_EXCEPTION) ≠ 0 then
    some (txq, 0)
  else
    let added := txq.added
    let space := usub (SFC_EF10_TXQ_LIMIT (txq.ptr_mask + 1)) (usub added txq.completed)
    let rd : Bool := space < txq.free_thresh
    match (if rd then sfc_ef10_tx_reap txq else some txq) with
    | none => none
    | some txq1 =>
      let space1 :=
        if rd then
          usub (SFC_EF10_TXQ_LIMIT (txq1.ptr_mask + 1)) (usub added txq1.completed)
        else space
      match xmitLoop pkts txq1 added space1 rd with
      | none => none
      | some o =>
        let txq2 :=
          if o.added ≠ o.txq.added then
            { sfc_ef10_tx_qpush o.txq o.added o.txq.added with added := o.added }
          else o.txq
        match
          (if SFC_TX_XMIT_PKTS_REAP_AT_LEAST_ONCE = true ∧ o.reap_done = false then
            sfc_ef10_tx_reap txq2
          else some txq2) with
        | none => none
        | some txq3 => some (txq3, o.count)

/-- sfc_ef10_tx_qstart: reset the counters to the caller supplied resume
positions, set started, clear not running and exception. -/
def sfc_ef10_tx_qstart (txq : Txq) (evq_read_ptr txq_desc_index : Nat) : Txq :=
  { txq with
      evq_read_ptr := u32 evq_read_ptr,
      added := u32 txq_desc_index,
      completed := u32 txq_desc_index,
      flags := (txq.flags ||| SFC_EF10_TXQ_STARTED) &&&
        (M - 1 - (SFC_EF10_TXQ_NOT_RUNNING ||| SFC_EF10_TXQ_EXCEPTION)) }

/-- sfc_ef10_tx_qstop: set not running; the result value is the event
queue read position handed back to the collaborator. -/
def sfc_ef10_tx_qstop (txq : Txq) : Txq × Nat :=
  ({ txq with flags := txq.flags ||| SFC_EF10_TXQ_NOT_RUNNING }, txq.evq_read_ptr)

/-! Characterization of the polling loop. -/

/-- The event ring word that the polling loop reads on its iteration j. -/
def evAt (s : Txq) (j : Nat) : Nat :=
  s.evq_hw_ring (u32 (s.evq_read_ptr + j) &&& s.ptr_mask)

/-- Iteration j of the polling loop consumes a present transmit event. -/
def goodAt (s : Txq) (j : Nat) : Prop :=
  sfc_ef10_ev_present (evAt s j) = true ∧
  FSF_AZ_EV_CODE (evAt s j) = FSE_AZ_EV_CODE_TX_EV

/-- Iteration j of the polling loop stops: the entry is absent or has a
foreign event type tag. -/
def stopAt (s : Txq) (j : Nat) : Prop := ¬ goodAt s j

instance (s : Txq) (j : Nat) : Decidable (goodAt s j) := by
  unfold goodAt
  infer_instance

/-- The state sfc_ef10_tx_reap builds once its polling loop has returned
state s1 and latest done index anew. -/
def reapPost (s s1 : Txq) (anew : Nat) : Txq :=
  let delta := usub anew (usub s.completed 1) &&& s1.ptr_mask
  let pending := u32 (s.completed + delta)
  let txq2 :=
    if pending ≠ s.completed then
      { freeRange (usub pending s.completed) s.completed s1 with completed := pending }
    else s1
  { txq2 with
      evq_hw_ring :=
        sfc_ef10_ev_qclear txq2.evq_hw_ring txq2.ptr_mask s.evq_read_ptr
          txq2.evq_read_ptr }

/-- The newly completed count a reap observes, as computed by the code. -/
def reapDelta (s s1 : Txq) (anew : Nat) : Nat :=
  usub anew (usub s.completed 1) &&& s1.ptr_mask

/-- The state after the buffer release loop of a reap. -/
def reapFreed (s s1 : Txq) (anew : Nat) : Txq :=
  freeRange (usub (u32 (s.completed + reapDelta s s1 anew)) s.completed) s.completed s1

/-- The furthest done index a reap stopping after k events observes. -/
def runDone (s : Txq) (k : Nat) : Nat :=
  if k = 0 then usub s.completed 1 else ESF_DZ_TX_DESCR_INDX (evAt s (k - 1))

/-- The number of descriptors such a reap completes, as the code computes
it: the unsigned gap from the previous done position, masked. -/
def runDelta (s : Txq) (k : Nat) : Nat :=
  usub (runDone s k) (usub s.completed 1) &&& s.ptr_mask

/-- The descriptor writes (masked slot, word) a packet produces, starting
at producer position added: one descriptor per segment, as the code
writes them. Reference list for the refinement statements. -/
def specPktDescs : List Seg → Nat → Nat → Nat → List (Nat × Nat)
  | [], _, _, _ => []
  | sg :: rest, pkt_len, added, mask =>
    let rem := usub pkt_len sg.len
    (added &&& mask, sfc_ef10_tx_qdesc_dma_create sg.addr sg.len (rem = 0))
      :: specPktDescs rest rem (u32 (added + 1)) mask

/-- The descriptor writes of a batch of packets laid out back to back
from a starting producer position. -/
def specBatchLog : List Pkt → Nat → Nat → List (Nat × Nat)
  | [], _, _ => []
  | p :: ps, added, mask =>
    specPktDescs p (u32 (pktLen p)) added mask
      ++ specBatchLog ps (u32 (added + p.length)) mask

/-- The shadow ring assignments of a batch: each packet is attached to
the masked slot of its last descriptor. -/
def specBatchShadow : List Pkt → Nat → Nat → List (Nat × Pkt)
  | [], _, _ => []
  | p :: ps, added, mask =>
    (usub (u32 (added + p.length)) 1 &&& mask, p)
      :: specBatchShadow ps (u32 (added + p.length)) mask

/-- Total number of segments, hence descriptors, of a batch. -/
def segsSum (pkts : List Pkt) : Nat := (pkts.map List.length).sum

/-- Every present transmit completion event of the ring reports a delta
from the consumed position of at most B descriptors. -/
def evOkAt (ring : Nat → Nat) (completed mask B : Nat) : Prop :=
  ∀ i, sfc_ef10_ev_present (ring i) = true →
    FSF_AZ_EV_CODE (ring i) = FSE_AZ_EV_CODE_TX_EV →
    usub (ESF_DZ_TX_DESCR_INDX (ring i)) (usub completed 1) &&& mask ≤ B

/-- The environment assumption on the hardware: every present transmit
completion event in the event ring reports a descriptor index within the
currently outstanding range. This is the spec ordering guarantee that
completions only acknowledge descriptors actually posted. -/
def evOk (s : Txq) : Prop :=
  evOkAt s.evq_hw_ring s.completed s.ptr_mask (usub s.added s.completed)

/-- Behaviour of the packet admission loop on a batch, relative to the
entry state: accepted count bounds, producer advance, counter invariant
preservation, write and shadow traces, and the doorbell discipline (at
most one mid loop flush, none once a reap has already happened). -/
def LoopSpec (pkts : List Pkt) : Prop :=
  ∀ (s : Txq) (added space : Nat) (rd : Bool) (out : LoopOut),
    xmitLoop pkts s added space rd = some out →
    added < M → s.completed < M →
    usub added s.completed ≤ SFC_EF10_TXQ_LIMIT (s.ptr_mask + 1) →
    space = SFC_EF10_TXQ_LIMIT (s.ptr_mask + 1) - usub added s.completed →
    (rd = false → evOkAt s.evq_hw_ring s.completed s.ptr_mask (usub added s.completed)) →
    (out.count ≤ pkts.length ∧
     out.added = u32 (added + segsSum (pkts.take out.count)) ∧
     out.txq.completed < M ∧
     usub out.added out.txq.completed ≤ SFC_EF10_TXQ_LIMIT (s.ptr_mask + 1) ∧
     out.txq.ptr_mask = s.ptr_mask ∧
     out.txq.free_thresh = s.free_thresh ∧
     out.txq.dlog = s.dlog ++ specBatchLog (pkts.take out.count) added s.ptr_mask ∧
     out.txq.slog = s.slog ++ specBatchShadow (pkts.take out.count) added s.ptr_mask ∧
     ((out.txq.dbell = s.dbell ∧ out.txq.added = s.added) ∨
       (∃ e w1, out.txq.dbell = s.dbell ++ [e] ∧
         w1 ≤ segsSum (pkts.take out.count) ∧
         out.txq.added = u32 (added + w1) ∧ out.txq.added ≠ s.added)) ∧
     (rd = true → out.txq.dbell = s.dbell ∧ out.txq.added = s.added))

/-- One datapath step: a queue start, a burst transmit call, or a reap
call, the latter two under the hardware legality assumption evOk. -/
inductive Step : Txq → Txq → Prop where
  | start (s : Txq) (a b : Nat) : Step s (sfc_ef10_tx_qstart s a b)
  | xmit (s : Txq) (pkts : List Pkt) (s2 : Txq) (n : Nat) (hEv : evOk s)
      (h : sfc_ef10_xmit_pkts s pkts = some (s2, n)) : Step s s2
  | reap (s s2 : Txq) (hEv : evOk s) (h : sfc_ef10_tx_reap s = some s2) : Step s s2

/-- States reachable from a queue start on a power of two ring. -/
inductive Reach : Txq → Prop where
  | init (s : Txq) (a b t : Nat) (ht : t ≤ 32) (hm : s.ptr_mask = 2 ^ t - 1) :
      Reach (sfc_ef10_tx_qstart s a b)
  | step (s s2 : Txq) (hr : Reach s) (hs : Step s s2) : Reach s2

/-- An all absent event ring. -/
def evAbsent : Nat → Nat := fun _ => EV_ABSENT

/-- An empty shadow ring. -/
def swNone : Nat → Option Pkt := fun _ => none

/-- A zeroed descriptor ring. -/
def ring0 : Nat → Nat := fun _ => 0

/-- Concrete queue for the batched completion scenario: ring of 8, four
descriptors in flight with shadow buffers in slots 0 to 3, one transmit
completion event reporting done index 3 at the cursor. -/
def demoC2 : Txq :=
  { flags := 1, ptr_mask := 7, added := 4, completed := 0, free_thresh := 0,
    evq_read_ptr := 0,
    sw_ring := fun i => if i < 4 then some [⟨100 + i, 10⟩] else none,
    txq_hw_ring := ring0, evq_hw_ring := upd evAbsent 0 3,
    dlog := [], slog := [], dbell := [], freed := [] }

/-- A four segment packet used by the doorbell scenario. -/
def pkt4 : Pkt := [⟨100, 10⟩, ⟨101, 10⟩, ⟨102, 10⟩, ⟨103, 10⟩]

/-- Concrete queue for the doorbell counterexample: ring of 32 (limit
22), empty, one completion event reporting done index 3 queued. -/
def demoC4 : Txq :=
  { flags := 1, ptr_mask := 31, added := 0, completed := 0, free_thresh := 0,
    evq_read_ptr := 0, sw_ring := swNone, txq_hw_ring := ring0,
    evq_hw_ring := upd evAbsent 0 3,
    dlog := [], slog := [], dbell := [], freed := [] }

/-- Concrete queue with a present foreign typed event at the cursor. -/
def demoC5 : Txq :=
  { flags := 1, ptr_mask := 7, added := 0, completed := 0, free_thresh := 0,
    evq_read_ptr := 0, sw_ring := swNone, txq_hw_ring := ring0,
    evq_hw_ring := upd evAbsent 0 (1 <<< 60),
    dlog := [], slog := [], dbell := [], freed := [] }

/-- Concrete queue with the exception flag set. -/
def demoC6 : Txq :=
  { flags := 5, ptr_mask := 7, added := 0, completed := 0, free_thresh := 0,
    evq_read_ptr := 0, sw_ring := swNone, txq_hw_ring := ring0,
    evq_hw_ring := evAbsent,
    dlog := [], slog := [], dbell := [], freed := [] }

/-- Concrete queue for the admission counterexample: ring of 16 (limit
6), five descriptors outstanding, so one usable slot, no completions. -/
def demoC7 : Txq :=
  { flags := 1, ptr_mask := 15, added := 5, completed := 0, free_thresh := 0,
    evq_read_ptr := 0, sw_ring := swNone, txq_hw_ring := ring0,
    evq_hw_ring := evAbsent,
    dlog := [], slog := [], dbell := [], freed := [] }

/-- Concrete idle queue with no completions pending. -/
def demoC8 : Txq :=
  { flags := 1, ptr_mask := 15, added := 3, completed := 3, free_thresh := 0,
    evq_read_ptr := 9, sw_ring := swNone, txq_hw_ring := ring0,
    evq_hw_ring := evAbsent,
    dlog := [], slog := [], dbell := [], freed := [] }

/-- Concrete queue for the exception progress scenario: two descriptors
in flight, a good completion for index 1 followed by a present foreign
typed event. -/
def demoC10 : Txq :=
  { flags := 1, ptr_mask := 7, added := 2, completed := 0, free_thresh := 0,
    evq_read_ptr := 0,
    sw_ring := fun i => if i < 2 then some [⟨200 + i, 5⟩] else none,
    txq_hw_ring := ring0, evq_hw_ring := upd (upd evAbsent 0 1) 1 (1 <<< 60),
    dlog := [], slog := [], dbell := [], freed := [] }

/-- Base state fed to qstart for the invariant witness. -/
def demoBase : Txq :=
  { flags := 2, ptr_mask := 31, added := 0, completed := 0, free_thresh := 0,
    evq_read_ptr := 0, sw_ring := swNone, txq_hw_ring := ring0,
    evq_hw_ring := evAbsent,
    dlog := [], slog := [], dbell := [], freed := [] }

/-- Concrete queue that accepts a whole batch: ring of 32, empty. -/
def demoC3 : Txq :=
  { flags := 1, ptr_mask := 31, added := 0, completed := 0, free_thresh := 0,
    evq_read_ptr := 0, sw_ring := swNone, txq_hw_ring := ring0,
    evq_hw_ring := evAbsent,
    dlog := [], slog := [], dbell := [], freed := [] }

/-- Definition following the words of the spec, for the refinement claim
about the descriptor budget: the number of descriptors a packet requires
is the sum over its segments of the ceiling of the segment length over
the maximum descriptor length. The code is compared against this. -/
def specRequiredDescs (p : Pkt) : Nat :=
  (p.map (fun sg => (sg.len + SFC_EF10_TX_DMA_DESC_LEN_MAX - 1)
    / SFC_EF10_TX_DMA_DESC_LEN_MAX)).sum

/-- A single segment packet of 100 bytes, used by the admission budget
counterexample. -/
def pkt1 : Pkt := [⟨300, 100⟩]

theorem M_pos : 0 < M := by decide

theorem u32_lt (x : Nat) : u32 x < M := Nat.mod_lt _ M_pos

theorem u32_eq_of_lt {x : Nat} (h : x < M) : u32 x = x := Nat.mod_eq_of_lt h

theorem usub_lt (a b : Nat) : usub a b < M := Nat.mod_lt _ M_pos

theorem usub_self (a : Nat) : usub a a = 0 := by
  unfold usub M
  omega

theorem usub_eq_sub {a b : Nat} (hba : b ≤ a) (ha : a < M) : usub a b = a - b := by
  unfold usub M at *
  omega

/-- Adding k to the minuend adds k to the unsigned difference, modulo M. -/
theorem usub_u32_add (a b k : Nat) : usub (u32 (a + k)) b = u32 (usub a b + k) := by
  unfold usub u32
  rw [Nat.mod_add_mod, Nat.mod_add_mod]
  ring_nf

/-- Subtracting a sum is iterated unsigned subtraction. -/
theorem usub_u32_add_right (a b d : Nat) :
    usub a (u32 (b + d)) = usub (usub a b) d := by
  unfold usub u32 M
  omega

theorem usub_sub_of_le {D d : Nat} (hd : d ≤ D) (hD : D < M) : usub D d = D - d :=
  usub_eq_sub hd hD

theorem u32_add_mod (a k : Nat) : u32 (u32 a + k) = u32 (a + k) := by
  unfold u32
  rw [Nat.mod_add_mod]

theorem u32_add_mod_right (a k : Nat) : u32 (a + u32 k) = u32 (a + k) := by
  unfold u32
  rw [Nat.add_mod_mod]

/-- Cancellation: the unsigned difference between c + k and c is k mod M. -/
theorem usub_u32_add_cancel (c k : Nat) : usub (u32 (c + k)) c = u32 k := by
  have h := usub_u32_add c c k
  rw [usub_self] at h
  simpa [u32] using h

theorem evAt_advance (s : Txq) (c j : Nat) :
    evAt { s with evq_read_ptr := u32 (s.evq_read_ptr + c) } j = evAt s (c + j) := by
  unfold evAt
  simp only [u32_add_mod]
  rw [Nat.add_assoc]

theorem evAt_zero (s : Txq) (hp : s.evq_read_ptr < M) :
    evAt s 0 = s.evq_hw_ring (s.evq_read_ptr &&& s.ptr_mask) := by
  unfold evAt
  rw [Nat.add_zero, u32_eq_of_lt hp]

/-- Running the polling loop: k present transmit events followed by a
stopper give back the state advanced past the k events, with the
exception flag set exactly when the stopper is a present foreign event,
and the last reported descriptor index. -/
theorem reapLoop_run :
    ∀ (k fuel : Nat) (s : Txq) (a : Nat), k < fuel → s.evq_read_ptr < M →
      (∀ j, j < k → goodAt s j) → stopAt s k →
      reapLoop fuel s a =
        some ({ s with
                  evq_read_ptr := u32 (s.evq_read_ptr + k),
                  flags := if sfc_ef10_ev_present (evAt s k) = true then
                      s.flags ||| SFC_EF10_TXQ_EXCEPTION
                    else s.flags },
              if k = 0 then a else ESF_DZ_TX_DESCR_INDX (evAt s (k - 1))) := by
  intro k
  induction k with
  | zero =>
    intro fuel s a hf hp _ hstop
    match fuel, hf with
    | f + 1, _ =>
      have hev := evAt_zero s hp
      by_cases hpres : sfc_ef10_ev_present (evAt s 0) = true
      · have hcode : FSF_AZ_EV_CODE (evAt s 0) ≠ FSE_AZ_EV_CODE_TX_EV :=
          fun h => hstop ⟨hpres, h⟩
        have hstep : sfc_ef10_tx_get_event s =
            (false, { s with flags := s.flags ||| SFC_EF10_TXQ_EXCEPTION }, evAt s 0) := by
          unfold sfc_ef10_tx_get_event
          simp [← hev, hpres, hcode]
        simp only [reapLoop, hstep]
        simp [hpres, Nat.add_zero, u32_eq_of_lt hp]
      · rw [Bool.not_eq_true] at hpres
        have hstep : sfc_ef10_tx_get_event s = (false, s, evAt s 0) := by
          unfold sfc_ef10_tx_get_event
          simp [← hev, hpres]
        simp only [reapLoop, hstep]
        simp [hpres, Nat.add_zero, u32_eq_of_lt hp]
  | succ k ih =>
    intro fuel s a hf hp hgood hstop
    match fuel, hf with
    | f + 1, hf =>
      have h0 := hgood 0 (Nat.succ_pos k)
      have hev := evAt_zero s hp
      have hstep : sfc_ef10_tx_get_event s =
          (true, { s with evq_read_ptr := u32 (s.evq_read_ptr + 1) }, evAt s 0) := by
        unfold sfc_ef10_tx_get_event
        simp [← hev, h0.1, h0.2]
      have hrec : reapLoop (f + 1) s a =
          reapLoop f { s with evq_read_ptr := u32 (s.evq_read_ptr + 1) }
            (ESF_DZ_TX_DESCR_INDX (evAt s 0)) := by
        simp only [reapLoop, hstep]
      rw [hrec]
      have hk : k < f := Nat.lt_of_succ_lt_succ hf
      have hgood1 : ∀ j, j < k →
          goodAt { s with evq_read_ptr := u32 (s.evq_read_ptr + 1) } j := by
        intro j hj
        unfold goodAt
        rw [evAt_advance]
        exact hgood (1 + j) (by omega)
      have hstop1 : stopAt { s with evq_read_ptr := u32 (s.evq_read_ptr + 1) } k := by
        unfold stopAt goodAt
        rw [evAt_advance]
        have h1k : 1 + k = k + 1 := Nat.add_comm 1 k
        rw [h1k]
        exact hstop
      rw [ih f _ _ hk (u32_lt _) hgood1 hstop1]
      have e2 : u32 (({ s with evq_read_ptr := u32 (s.evq_read_ptr + 1) } : Txq).evq_read_ptr + k)
          = u32 (s.evq_read_ptr + (k + 1)) := by
        show u32 (u32 (s.evq_read_ptr + 1) + k) = _
        rw [u32_add_mod]
        congr 1
        omega
      have e1 : evAt { s with evq_read_ptr := u32 (s.evq_read_ptr + 1) } k = evAt s (k + 1) := by
        rw [evAt_advance]
        congr 1
        omega
      rw [e2, e1]
      by_cases hk0 : k = 0
      · subst hk0
        simp [evAt_zero _ hp]
      · have e3 : evAt { s with evq_read_ptr := u32 (s.evq_read_ptr + 1) } (k - 1) = evAt s k := by
          rw [evAt_advance]
          congr 1
          omega
        rw [if_neg hk0, if_neg (Nat.succ_ne_zero k), e3]
        simp

/-! Properties of the buffer release loop and the event ring clear loop. -/

theorem freeRange_succ_some {n c : Nat} {s : Txq} {m : Pkt}
    (hsw : s.sw_ring (c &&& s.ptr_mask) = some m) :
    freeRange (n + 1) c s = freeRange n (u32 (c + 1))
      { s with sw_ring := upd s.sw_ring (c &&& s.ptr_mask) none,
               freed := s.freed ++ [m] } := by
  conv_lhs => unfold freeRange
  simp [hsw]

theorem freeRange_succ_none {n c : Nat} {s : Txq}
    (hsw : s.sw_ring (c &&& s.ptr_mask) = none) :
    freeRange (n + 1) c s = freeRange n (u32 (c + 1)) s := by
  conv_lhs => unfold freeRange
  simp [hsw]

theorem freeRange_frame (n : Nat) : ∀ (c : Nat) (s : Txq),
    (freeRange n c s).flags = s.flags ∧ (freeRange n c s).ptr_mask = s.ptr_mask ∧
    (freeRange n c s).added = s.added ∧ (freeRange n c s).completed = s.completed ∧
    (freeRange n c s).free_thresh = s.free_thresh ∧
    (freeRange n c s).evq_read_ptr = s.evq_read_ptr ∧
    (freeRange n c s).txq_hw_ring = s.txq_hw_ring ∧
    (freeRange n c s).evq_hw_ring = s.evq_hw_ring ∧
    (freeRange n c s).dlog = s.dlog ∧ (freeRange n c s).slog = s.slog ∧
    (freeRange n c s).dbell = s.dbell := by
  induction n with
  | zero => intro c s; simp [freeRange]
  | succ n ih =>
    intro c s
    cases hsw : s.sw_ring (c &&& s.ptr_mask) with
    | some m =>
      rw [freeRange_succ_some hsw]
      simpa using ih (u32 (c + 1)) _
    | none =>
      rw [freeRange_succ_none hsw]
      exact ih _ s

theorem freeRange_sw_none_mono (n : Nat) : ∀ (c i : Nat) (s : Txq),
    s.sw_ring i = none → (freeRange n c s).sw_ring i = none := by
  induction n with
  | zero => intro c i s h; simpa [freeRange] using h
  | succ n ih =>
    intro c i s h
    cases hsw : s.sw_ring (c &&& s.ptr_mask) with
    | some m =>
      rw [freeRange_succ_some hsw]
      apply ih
      simp only [upd]
      by_cases hi : i = c &&& s.ptr_mask <;> simp [hi, h]
    | none =>
      rw [freeRange_succ_none hsw]
      exact ih _ _ _ h

theorem freeRange_freed_mono (n : Nat) : ∀ (c : Nat) (s : Txq),
    ∃ l, (freeRange n c s).freed = s.freed ++ l := by
  induction n with
  | zero => intro c s; exact ⟨[], by simp [freeRange]⟩
  | succ n ih =>
    intro c s
    cases hsw : s.sw_ring (c &&& s.ptr_mask) with
    | some m =>
      rw [freeRange_succ_some hsw]
      obtain ⟨l, hl⟩ := ih (u32 (c + 1))
        { s with sw_ring := upd s.sw_ring (c &&& s.ptr_mask) none,
                 freed := s.freed ++ [m] }
      refine ⟨[m] ++ l, ?_⟩
      rw [hl]
      simp
    | none =>
      rw [freeRange_succ_none hsw]
      exact ih _ s

theorem freeRange_sw_none (n : Nat) : ∀ (c : Nat) (s : Txq), c < M →
    ∀ j, j < n → (freeRange n c s).sw_ring (u32 (c + j) &&& s.ptr_mask) = none := by
  induction n with
  | zero => intro c s _ j hj; exact absurd hj (Nat.not_lt_zero j)
  | succ n ih =>
    intro c s hc j hj
    have key : ∀ s1 : Txq, s1.ptr_mask = s.ptr_mask →
        s1.sw_ring (c &&& s.ptr_mask) = none →
        (freeRange n (u32 (c + 1)) s1).sw_ring (u32 (c + j) &&& s.ptr_mask) = none := by
      intro s1 hm h1
      match j, hj with
      | 0, _ =>
        have hpos : u32 (c + 0) = c := by
          rw [Nat.add_zero]
          exact u32_eq_of_lt hc
        rw [hpos]
        exact freeRange_sw_none_mono n _ _ _ h1
      | j + 1, hj =>
        have hpos : u32 (c + (j + 1)) &&& s.ptr_mask
            = u32 (u32 (c + 1) + j) &&& s1.ptr_mask := by
          rw [u32_add_mod, hm]
          congr 2
          omega
        rw [hpos]
        exact ih (u32 (c + 1)) s1 (u32_lt _) j (by omega)
    cases hsw : s.sw_ring (c &&& s.ptr_mask) with
    | some m =>
      rw [freeRange_succ_some hsw]
      exact key _ rfl (by simp [upd])
    | none =>
      rw [freeRange_succ_none hsw]
      exact key s rfl hsw

theorem freeRange_freed (n : Nat) : ∀ (c : Nat) (s : Txq), c < M →
    ∀ j, j < n → ∀ m, s.sw_ring (u32 (c + j) &&& s.ptr_mask) = some m →
      m ∈ (freeRange n c s).freed := by
  induction n with
  | zero => intro c s _ j hj; omega
  | succ n ih =>
    intro c s hc j hj m hm
    have hpos0 : u32 (c + 0) = c := by
      rw [Nat.add_zero]
      exact u32_eq_of_lt hc
    cases hsw : s.sw_ring (c &&& s.ptr_mask) with
    | some m0 =>
      rw [freeRange_succ_some hsw]
      by_cases hal : u32 (c + j) &&& s.ptr_mask = c &&& s.ptr_mask
      · rw [hal, hsw] at hm
        have he : m0 = m := by injection hm
        obtain ⟨l, hl⟩ := freeRange_freed_mono n (u32 (c + 1))
          { s with sw_ring := upd s.sw_ring (c &&& s.ptr_mask) none,
                   freed := s.freed ++ [m0] }
        rw [hl]
        simp [he]
      · match j, hj with
        | 0, _ =>
          rw [hpos0] at hal
          exact absurd rfl hal
        | j + 1, hj =>
          apply ih (u32 (c + 1)) _ (u32_lt _) j (by omega) m
          show (upd s.sw_ring (c &&& s.ptr_mask) none)
              (u32 (u32 (c + 1) + j) &&& s.ptr_mask) = some m
          have hpos : u32 (u32 (c + 1) + j) = u32 (c + (j + 1)) := by
            rw [u32_add_mod]
            congr 1
            omega
          rw [hpos]
          simp only [upd]
          rw [if_neg hal]
          exact hm
    | none =>
      rw [freeRange_succ_none hsw]
      match j, hj with
      | 0, _ =>
        rw [hpos0] at hm
        rw [hm] at hsw
        cases hsw
      | j + 1, hj =>
        have hpos : u32 (c + (j + 1)) = u32 (u32 (c + 1) + j) := by
          rw [u32_add_mod]
          congr 1
          omega
        rw [hpos] at hm
        exact ih (u32 (c + 1)) s (u32_lt _) j (by omega) m hm

theorem qclearLoop_succ (n p mask : Nat) (ring : Nat → Nat) :
    qclearLoop (n + 1) p mask ring
      = qclearLoop n (u32 (p + 1)) mask (upd ring (p &&& mask) EV_ABSENT) := rfl

theorem qclearLoop_mono (n : Nat) : ∀ (p mask : Nat) (ring : Nat → Nat) (i : Nat),
    ring i = EV_ABSENT → qclearLoop n p mask ring i = EV_ABSENT := by
  induction n with
  | zero => intro p mask ring i h; simpa [qclearLoop] using h
  | succ n ih =>
    intro p mask ring i h
    rw [qclearLoop_succ]
    apply ih
    simp only [upd]
    by_cases hi : i = p &&& mask <;> simp [hi, h]

theorem qclearLoop_cleared (n : Nat) : ∀ (p mask : Nat) (ring : Nat → Nat), p < M →
    ∀ j, j < n → qclearLoop n p mask ring (u32 (p + j) &&& mask) = EV_ABSENT := by
  induction n with
  | zero => intro p mask ring _ j hj; omega
  | succ n ih =>
    intro p mask ring hp j hj
    rw [qclearLoop_succ]
    match j, hj with
    | 0, _ =>
      have hpos : u32 (p + 0) = p := by
        rw [Nat.add_zero]
        exact u32_eq_of_lt hp
      rw [hpos]
      apply qclearLoop_mono
      simp [upd]
    | j + 1, hj =>
      have hpos : u32 (p + (j + 1)) = u32 (u32 (p + 1) + j) := by
        rw [u32_add_mod]
        congr 1
        omega
      rw [hpos]
      exact ih (u32 (p + 1)) mask _ (u32_lt _) j (by omega)

theorem qclearLoop_untouched (n : Nat) : ∀ (p mask : Nat) (ring : Nat → Nat) (i : Nat),
    p < M → (∀ j, j < n → i ≠ u32 (p + j) &&& mask) →
    qclearLoop n p mask ring i = ring i := by
  induction n with
  | zero => intro p mask ring i _ _; simp [qclearLoop]
  | succ n ih =>
    intro p mask ring i hp h
    rw [qclearLoop_succ]
    have h0 : i ≠ p &&& mask := by
      have h00 := h 0 (Nat.succ_pos n)
      rwa [Nat.add_zero, u32_eq_of_lt hp] at h00
    rw [ih (u32 (p + 1)) mask _ i (u32_lt _) ?_]
    · simp [upd, h0]
    · intro j hj
      have hpos : u32 (u32 (p + 1) + j) = u32 (p + (j + 1)) := by
        rw [u32_add_mod]
        congr 1
        omega
      rw [hpos]
      exact h (j + 1) (by omega)

/-- What the polling loop can do to the state: it only moves the event
read pointer and possibly sets the exception flag, and the latest done
index it returns is either the initial one or a field of some present
transmit event of the ring. -/
theorem reapLoop_out (fuel : Nat) : ∀ (s : Txq) (a : Nat) (s1 : Txq) (a1 : Nat),
    reapLoop fuel s a = some (s1, a1) →
    s1.added = s.added ∧ s1.completed = s.completed ∧ s1.ptr_mask = s.ptr_mask ∧
    s1.free_thresh = s.free_thresh ∧ s1.sw_ring = s.sw_ring ∧
    s1.txq_hw_ring = s.txq_hw_ring ∧ s1.evq_hw_ring = s.evq_hw_ring ∧
    s1.dlog = s.dlog ∧ s1.slog = s.slog ∧ s1.dbell = s.dbell ∧ s1.freed = s.freed ∧
    (s1.flags = s.flags ∨ s1.flags = s.flags ||| SFC_EF10_TXQ_EXCEPTION) ∧
    (a1 = a ∨ ∃ i, sfc_ef10_ev_present (s.evq_hw_ring i) = true ∧
      FSF_AZ_EV_CODE (s.evq_hw_ring i) = FSE_AZ_EV_CODE_TX_EV ∧
      a1 = ESF_DZ_TX_DESCR_INDX (s.evq_hw_ring i)) := by
  induction fuel with
  | zero => intro s a s1 a1 h; simp [reapLoop] at h
  | succ fuel ih =>
    intro s a s1 a1 h
    by_cases hpres :
        sfc_ef10_ev_present (s.evq_hw_ring (s.evq_read_ptr &&& s.ptr_mask)) = true
    · by_cases hcode :
          FSF_AZ_EV_CODE (s.evq_hw_ring (s.evq_read_ptr &&& s.ptr_mask))
            = FSE_AZ_EV_CODE_TX_EV
      · have hstep : sfc_ef10_tx_get_event s =
            (true, { s with evq_read_ptr := u32 (s.evq_read_ptr + 1) },
              s.evq_hw_ring (s.evq_read_ptr &&& s.ptr_mask)) := by
          unfold sfc_ef10_tx_get_event
          simp [hpres, hcode]
        rw [show reapLoop (fuel + 1) s a
            = reapLoop fuel { s with evq_read_ptr := u32 (s.evq_read_ptr + 1) }
              (ESF_DZ_TX_DESCR_INDX (s.evq_hw_ring (s.evq_read_ptr &&& s.ptr_mask)))
          from by simp only [reapLoop, hstep]] at h
        obtain ⟨h1, h2, h3, h4, h5, h6, h7, h8, h9, h10, h11, h12, h13⟩ :=
          ih _ _ _ _ h
        refine ⟨h1, h2, h3, h4, h5, h6, h7, h8, h9, h10, h11, h12, ?_⟩
        rcases h13 with h13 | ⟨i, hi1, hi2, hi3⟩
        · exact Or.inr ⟨s.evq_read_ptr &&& s.ptr_mask, hpres, hcode, h13⟩
        · exact Or.inr ⟨i, hi1, hi2, hi3⟩
      · have hstep : sfc_ef10_tx_get_event s =
            (false, { s with flags := s.flags ||| SFC_EF10_TXQ_EXCEPTION },
              s.evq_hw_ring (s.evq_read_ptr &&& s.ptr_mask)) := by
          unfold sfc_ef10_tx_get_event
          simp [hpres, hcode]
        rw [show reapLoop (fuel + 1) s a
            = some ({ s with flags := s.flags ||| SFC_EF10_TXQ_EXCEPTION }, a)
          from by simp only [reapLoop, hstep]] at h
        simp only [Option.some.injEq, Prod.mk.injEq] at h
        obtain ⟨rfl, rfl⟩ := h
        exact ⟨rfl, rfl, rfl, rfl, rfl, rfl, rfl, rfl, rfl, rfl, rfl,
          Or.inr rfl, Or.inl rfl⟩
    · rw [Bool.not_eq_true] at hpres
      have hstep : sfc_ef10_tx_get_event s =
          (false, s, s.evq_hw_ring (s.evq_read_ptr &&& s.ptr_mask)) := by
        unfold sfc_ef10_tx_get_event
        simp [hpres]
      rw [show reapLoop (fuel + 1) s a = some (s, a)
        from by simp only [reapLoop, hstep]] at h
      simp only [Option.some.injEq, Prod.mk.injEq] at h
      obtain ⟨rfl, rfl⟩ := h
      exact ⟨rfl, rfl, rfl, rfl, rfl, rfl, rfl, rfl, rfl, rfl, rfl,
        Or.inl rfl, Or.inl rfl⟩

theorem reap_eq {s s1 : Txq} {anew : Nat}
    (hloop : reapLoop (s.ptr_mask + 2) s (usub s.completed 1) = some (s1, anew)) :
    sfc_ef10_tx_reap s = some (reapPost s s1 anew) := by
  unfold sfc_ef10_tx_reap reapPost
  dsimp only
  rw [hloop]

theorem reapPost_eq_of_eq {s s1 : Txq} {anew : Nat}
    (hpc : u32 (s.completed + reapDelta s s1 anew) = s.completed) :
    reapPost s s1 anew =
      { s1 with evq_hw_ring :=
          sfc_ef10_ev_qclear s1.evq_hw_ring s1.ptr_mask s.evq_read_ptr s1.evq_read_ptr } := by
  unfold reapPost reapDelta at *
  dsimp only
  rw [if_neg (not_not_intro hpc)]

theorem reapPost_eq_of_ne {s s1 : Txq} {anew : Nat}
    (hpc : u32 (s.completed + reapDelta s s1 anew) ≠ s.completed) :
    reapPost s s1 anew =
      { reapFreed s s1 anew with
          completed := u32 (s.completed + reapDelta s s1 anew),
          evq_hw_ring :=
            sfc_ef10_ev_qclear (reapFreed s s1 anew).evq_hw_ring
              (reapFreed s s1 anew).ptr_mask s.evq_read_ptr
              (reapFreed s s1 anew).evq_read_ptr } := by
  unfold reapPost reapFreed reapDelta at *
  dsimp only
  rw [if_pos hpc]

/-- Projections of the reap result state: the counters advance by the
observed delta, everything else that a caller relies on is framed. -/
theorem reapPost_proj {s s1 : Txq} {anew : Nat} (hc1 : s1.completed = s.completed) :
    (reapPost s s1 anew).completed = u32 (s.completed + reapDelta s s1 anew) ∧
    (reapPost s s1 anew).added = s1.added ∧
    (reapPost s s1 anew).ptr_mask = s1.ptr_mask ∧
    (reapPost s s1 anew).free_thresh = s1.free_thresh ∧
    (reapPost s s1 anew).flags = s1.flags ∧
    (reapPost s s1 anew).evq_read_ptr = s1.evq_read_ptr ∧
    (reapPost s s1 anew).txq_hw_ring = s1.txq_hw_ring ∧
    (reapPost s s1 anew).dlog = s1.dlog ∧
    (reapPost s s1 anew).slog = s1.slog ∧
    (reapPost s s1 anew).dbell = s1.dbell := by
  obtain ⟨ff, fm, fa, fc, ft, fe, ftx, fev, fdl, fsl, fdb⟩ :=
    freeRange_frame (usub (u32 (s.completed + reapDelta s s1 anew)) s.completed)
      s.completed s1
  by_cases hpc : u32 (s.completed + reapDelta s s1 anew) = s.completed
  · rw [reapPost_eq_of_eq hpc]
    refine ⟨?_, rfl, rfl, rfl, rfl, rfl, rfl, rfl, rfl, rfl⟩
    show s1.completed = _
    rw [hc1, hpc]
  · rw [reapPost_eq_of_ne hpc]
    exact ⟨rfl, fa, fm, ft, ff, fe, ftx, fdl, fsl, fdb⟩

/-- Decomposition of a successful reap call used by the invariant proofs:
completed advances by a delta that is zero or derived from a present
transmit event of the ring, and the producer side fields are framed. -/
theorem reap_bound {s s2 : Txq} (h : sfc_ef10_tx_reap s = some s2) :
    ∃ d, d ≤ s.ptr_mask ∧ s2.completed = u32 (s.completed + d) ∧
      (d = 0 ∨ ∃ i, sfc_ef10_ev_present (s.evq_hw_ring i) = true ∧
        FSF_AZ_EV_CODE (s.evq_hw_ring i) = FSE_AZ_EV_CODE_TX_EV ∧
        d = usub (ESF_DZ_TX_DESCR_INDX (s.evq_hw_ring i)) (usub s.completed 1)
          &&& s.ptr_mask) ∧
      s2.added = s.added ∧ s2.ptr_mask = s.ptr_mask ∧ s2.free_thresh = s.free_thresh ∧
      s2.dlog = s.dlog ∧ s2.slog = s.slog ∧ s2.dbell = s.dbell ∧
      (s2.flags = s.flags ∨ s2.flags = s.flags ||| SFC_EF10_TXQ_EXCEPTION) := by
  have hl : ∃ pr, reapLoop (s.ptr_mask + 2) s (usub s.completed 1) = some pr := by
    unfold sfc_ef10_tx_reap at h
    dsimp only at h
    cases hh : reapLoop (s.ptr_mask + 2) s (usub s.completed 1) with
    | none => rw [hh] at h; cases h
    | some pr => exact ⟨pr, rfl⟩
  obtain ⟨⟨s1, anew⟩, hloop⟩ := hl
  have h2 := (reap_eq hloop).symm.trans h
  have h3 : reapPost s s1 anew = s2 := by injection h2
  subst h3
  obtain ⟨la, lc, lm, lt, lsw, ltx, lev, ldl, lsl, ldb, lfr, lfl, lanew⟩ :=
    reapLoop_out _ _ _ _ _ hloop
  obtain ⟨pc, pa, pm, pt, pf, pe, ptx, pdl, psl, pdb⟩ := reapPost_proj lc
  refine ⟨reapDelta s s1 anew, ?_, pc, ?_, ?_, ?_, ?_, ?_, ?_, ?_, ?_⟩
  · rw [show reapDelta s s1 anew = usub anew (usub s.completed 1) &&& s1.ptr_mask from rfl, lm]
    exact Nat.and_le_right
  · rcases lanew with ha | ⟨i, hi1, hi2, hi3⟩
    · left
      rw [show reapDelta s s1 anew = usub anew (usub s.completed 1) &&& s1.ptr_mask from rfl,
        ha, usub_self, Nat.zero_and]
    · right
      refine ⟨i, hi1, hi2, ?_⟩
      rw [show reapDelta s s1 anew = usub anew (usub s.completed 1) &&& s1.ptr_mask from rfl,
        hi3, lm]
  · rw [pa, la]
  · rw [pm, lm]
  · rw [pt, lt]
  · rw [pdl, ldl]
  · rw [psl, lsl]
  · rw [pdb, ldb]
  · rw [pf]
    exact lfl

/-- Effect of the post polling part of a reap, for a loop result state s1
that differs from s only in read pointer and flags. -/
theorem reapPost_run (s s1 : Txq) (A k : Nat)
    (hc1 : s1.completed = s.completed) (hm1 : s1.ptr_mask = s.ptr_mask)
    (hsw1 : s1.sw_ring = s.sw_ring) (hev1 : s1.evq_hw_ring = s.evq_hw_ring)
    (ha1 : s1.added = s.added)
    (hre : s1.evq_read_ptr = u32 (s.evq_read_ptr + k))
    (hcm : s.completed < M) (hp : s.evq_read_ptr < M) (hmask : s.ptr_mask + 1 < M)
    (hk_lt : k < M) :
    (reapPost s s1 A).completed
        = u32 (s.completed + (usub A (usub s.completed 1) &&& s.ptr_mask)) ∧
    (∀ j, j < usub A (usub s.completed 1) &&& s.ptr_mask →
      (reapPost s s1 A).sw_ring (u32 (s.completed + j) &&& s.ptr_mask) = none) ∧
    (∀ j, j < usub A (usub s.completed 1) &&& s.ptr_mask → ∀ m,
      s.sw_ring (u32 (s.completed + j) &&& s.ptr_mask) = some m →
      m ∈ (reapPost s s1 A).freed) ∧
    (reapPost s s1 A).evq_read_ptr = u32 (s.evq_read_ptr + k) ∧
    (reapPost s s1 A).flags = s1.flags ∧
    (reapPost s s1 A).added = s.added ∧
    (reapPost s s1 A).ptr_mask = s.ptr_mask ∧
    (∀ j, j < k →
      (reapPost s s1 A).evq_hw_ring (u32 (s.evq_read_ptr + j) &&& s.ptr_mask)
        = EV_ABSENT) ∧
    (∀ i, (∀ j, j < k → i ≠ u32 (s.evq_read_ptr + j) &&& s.ptr_mask) →
      (reapPost s s1 A).evq_hw_ring i = s.evq_hw_ring i) := by
  have hD : reapDelta s s1 A = usub A (usub s.completed 1) &&& s.ptr_mask := by
    unfold reapDelta
    rw [hm1]
  have hD_le : usub A (usub s.completed 1) &&& s.ptr_mask ≤ s.ptr_mask :=
    Nat.and_le_right
  have hD_lt : usub A (usub s.completed 1) &&& s.ptr_mask < M := by omega
  have husub : usub (u32 (s.completed + (usub A (usub s.completed 1) &&& s.ptr_mask)))
      s.completed = usub A (usub s.completed 1) &&& s.ptr_mask := by
    rw [usub_u32_add_cancel]
    exact u32_eq_of_lt hD_lt
  have hclear_ct : usub (u32 (s.evq_read_ptr + k)) s.evq_read_ptr = k := by
    rw [usub_u32_add_cancel]
    exact u32_eq_of_lt hk_lt
  by_cases hpc : u32 (s.completed + (usub A (usub s.completed 1) &&& s.ptr_mask))
      = s.completed
  · have hD0 : usub A (usub s.completed 1) &&& s.ptr_mask = 0 := by
      rw [hpc, usub_self] at husub
      exact husub.symm
    rw [reapPost_eq_of_eq (by rw [hD]; exact hpc)]
    refine ⟨?_, ?_, ?_, ?_, rfl, ha1, hm1, ?_, ?_⟩
    · show s1.completed = _
      rw [hc1]
      exact hpc.symm
    · intro j hj
      rw [hD0] at hj
      exact absurd hj (Nat.not_lt_zero j)
    · intro j hj
      rw [hD0] at hj
      exact absurd hj (Nat.not_lt_zero j)
    · exact hre
    · intro j hj
      show sfc_ef10_ev_qclear s1.evq_hw_ring s1.ptr_mask s.evq_read_ptr
        s1.evq_read_ptr _ = EV_ABSENT
      rw [hev1, hm1, hre]
      unfold sfc_ef10_ev_qclear
      rw [hclear_ct]
      exact qclearLoop_cleared k s.evq_read_ptr s.ptr_mask s.evq_hw_ring hp j hj
    · intro i hi
      show sfc_ef10_ev_qclear s1.evq_hw_ring s1.ptr_mask s.evq_read_ptr
        s1.evq_read_ptr i = s.evq_hw_ring i
      rw [hev1, hm1, hre]
      unfold sfc_ef10_ev_qclear
      rw [hclear_ct]
      exact qclearLoop_untouched k s.evq_read_ptr s.ptr_mask s.evq_hw_ring i hp hi
  · have hRF : reapFreed s s1 A
        = freeRange (usub A (usub s.completed 1) &&& s.ptr_mask) s.completed s1 := by
      unfold reapFreed
      rw [hD, husub]
    obtain ⟨ff, fm, fa, fc, ft, fe, ftx, fev, fdl, fsl, fdb⟩ :=
      freeRange_frame (usub A (usub s.completed 1) &&& s.ptr_mask) s.completed s1
    rw [reapPost_eq_of_ne (by rw [hD]; exact hpc)]
    refine ⟨?_, ?_, ?_, ?_, ?_, ?_, ?_, ?_, ?_⟩
    · show u32 (s.completed + reapDelta s s1 A) = _
      rw [hD]
    · intro j hj
      show (reapFreed s s1 A).sw_ring _ = none
      rw [hRF]
      have hr := freeRange_sw_none (usub A (usub s.completed 1) &&& s.ptr_mask)
        s.completed s1 hcm j hj
      rwa [hm1] at hr
    · intro j hj m hm
      show m ∈ (reapFreed s s1 A).freed
      rw [hRF]
      apply freeRange_freed (usub A (usub s.completed 1) &&& s.ptr_mask)
        s.completed s1 hcm j hj m
      rw [hsw1, hm1]
      exact hm
    · show (reapFreed s s1 A).evq_read_ptr = _
      rw [hRF, fe, hre]
    · show (reapFreed s s1 A).flags = s1.flags
      rw [hRF, ff]
    · show (reapFreed s s1 A).added = s.added
      rw [hRF, fa, ha1]
    · show (reapFreed s s1 A).ptr_mask = s.ptr_mask
      rw [hRF, fm, hm1]
    · intro j hj
      show sfc_ef10_ev_qclear (reapFreed s s1 A).evq_hw_ring
        (reapFreed s s1 A).ptr_mask s.evq_read_ptr
        (reapFreed s s1 A).evq_read_ptr _ = EV_ABSENT
      rw [hRF, fev, fm, fe, hev1, hm1, hre]
      unfold sfc_ef10_ev_qclear
      rw [hclear_ct]
      exact qclearLoop_cleared k s.evq_read_ptr s.ptr_mask s.evq_hw_ring hp j hj
    · intro i hi
      show sfc_ef10_ev_qclear (reapFreed s s1 A).evq_hw_ring
        (reapFreed s s1 A).ptr_mask s.evq_read_ptr
        (reapFreed s s1 A).evq_read_ptr i = s.evq_hw_ring i
      rw [hRF, fev, fm, fe, hev1, hm1, hre]
      unfold sfc_ef10_ev_qclear
      rw [hclear_ct]
      exact qclearLoop_untouched k s.evq_read_ptr s.ptr_mask s.evq_hw_ring i hp hi

/-- Full characterization of a reap that reads k present transmit events
and then stops: buffers of the newly completed range are freed and their
shadow slots cleared, completed advances by the computed delta, the read
pointer moves past exactly the consumed events, the exception flag is set
exactly when the stopper is a present foreign event, and the consumed
event ring range is cleared while every other entry is untouched. -/
theorem reap_run (s : Txq) (k : Nat)
    (hp : s.evq_read_ptr < M) (hcm : s.completed < M) (hmask : s.ptr_mask + 1 < M)
    (hk : k ≤ s.ptr_mask + 1)
    (good : ∀ j, j < k → goodAt s j) (stop : stopAt s k) :
    ∃ s2, sfc_ef10_tx_reap s = some s2 ∧
      s2.completed = u32 (s.completed + runDelta s k) ∧
      (∀ j, j < runDelta s k →
        s2.sw_ring (u32 (s.completed + j) &&& s.ptr_mask) = none) ∧
      (∀ j, j < runDelta s k → ∀ m,
        s.sw_ring (u32 (s.completed + j) &&& s.ptr_mask) = some m → m ∈ s2.freed) ∧
      s2.evq_read_ptr = u32 (s.evq_read_ptr + k) ∧
      s2.flags = (if sfc_ef10_ev_present (evAt s k) = true then
          s.flags ||| SFC_EF10_TXQ_EXCEPTION else s.flags) ∧
      s2.added = s.added ∧ s2.ptr_mask = s.ptr_mask ∧
      (∀ j, j < k →
        s2.evq_hw_ring (u32 (s.evq_read_ptr + j) &&& s.ptr_mask) = EV_ABSENT) ∧
      (∀ i, (∀ j, j < k → i ≠ u32 (s.evq_read_ptr + j) &&& s.ptr_mask) →
        s2.evq_hw_ring i = s.evq_hw_ring i) := by
  have hloop := reapLoop_run k (s.ptr_mask + 2) s (usub s.completed 1)
    (by omega) hp good stop
  have hA : (if k = 0 then usub s.completed 1
      else ESF_DZ_TX_DESCR_INDX (evAt s (k - 1))) = runDone s k := rfl
  rw [hA] at hloop
  have hreap := reap_eq hloop
  refine ⟨_, hreap, ?_⟩
  have hrun := reapPost_run s
    { s with evq_read_ptr := u32 (s.evq_read_ptr + k),
             flags := if sfc_ef10_ev_present (evAt s k) = true then
                 s.flags ||| SFC_EF10_TXQ_EXCEPTION else s.flags }
    (runDone s k) k rfl rfl rfl rfl rfl rfl hcm hp hmask (by omega)
  obtain ⟨r1, r2, r3, r4, r5, r6, r7, r8, r9⟩ := hrun
  exact ⟨r1, r2, r3, r4, r5, r6, r7, r8, r9⟩

/-! Flag bit arithmetic helpers. -/

theorem or_two_and_four (x : Nat) : (x ||| 2) &&& 4 = x &&& 4 := by
  rw [Nat.and_distrib_right, (by decide : (2 : Nat) &&& 4 = 0), Nat.or_zero]

theorem or_four_and_four_ne (x : Nat) : (x ||| 4) &&& 4 ≠ 0 := by
  rw [Nat.and_distrib_right, (by decide : (4 : Nat) &&& 4 = 4)]
  intro h
  have h4 : (x &&& 4 ||| 4).testBit 2 = true := by
    rw [Nat.testBit_or]
    simp [Nat.testBit]
  rw [h] at h4
  simp [Nat.testBit] at h4

theorem and_mask_and_four (x : Nat) : (x &&& 4294967289) &&& 4 = 0 := by
  rw [Nat.and_assoc, (by decide : (4294967289 : Nat) &&& 4 = 0), Nat.and_zero]

/-- Distinct loop iterations below the ring size touch distinct masked
positions when the mask is a power of two minus one. -/
theorem pos_distinct {t ptr j k : Nat} (ht : t ≤ 32) (hj : j < k)
    (hkm : k ≤ 2 ^ t - 1) :
    u32 (ptr + k) &&& (2 ^ t - 1) ≠ u32 (ptr + j) &&& (2 ^ t - 1) := by
  have hM : M = 2 ^ 32 := by decide
  have hdvd : (2 ^ t : Nat) ∣ M := by
    rw [hM]
    exact pow_dvd_pow 2 ht
  have hmod : ∀ x : Nat, u32 x &&& (2 ^ t - 1) = x % 2 ^ t := by
    intro x
    rw [Nat.and_pow_two_sub_one_eq_mod, u32]
    exact Nat.mod_mod_of_dvd x hdvd
  rw [hmod, hmod]
  intro h
  have hme : Nat.ModEq (2 ^ t) (ptr + j) (ptr + k) := h.symm
  have hjk : Nat.ModEq (2 ^ t) j k := Nat.ModEq.add_left_cancel' ptr hme
  have hdv : (2 ^ t : Nat) ∣ k - j := (Nat.modEq_iff_dvd' (Nat.le_of_lt hj)).mp hjk
  have hle : 2 ^ t ≤ k - j := Nat.le_of_dvd (by omega) hdv
  have hpow : 1 ≤ 2 ^ t := Nat.one_le_two_pow
  omega

/-- A reap call never clears the exception flag. -/
theorem reap_keeps_exception {s s2 : Txq} (h : sfc_ef10_tx_reap s = some s2)
    (he : s.flags &&& SFC_EF10_TXQ_EXCEPTION ≠ 0) :
    s2.flags &&& SFC_EF10_TXQ_EXCEPTION ≠ 0 := by
  obtain ⟨d, _, _, _, _, _, _, _, _, _, hfl⟩ := reap_bound h
  rcases hfl with hfl | hfl <;> rw [hfl]
  · exact he
  · exact or_four_and_four_ne s.flags

/-- CLAIM C8: a reap that finds no present completion at the read cursor
changes nothing at all: same completed count, same shadow ring, same
event read cursor, same everything (and it trivially does not block,
being a total function of the state). -/
theorem claim_C8_reap_noop (s : Txq) (hc : s.completed < M)
    (habs : sfc_ef10_ev_present (s.evq_hw_ring (s.evq_read_ptr &&& s.ptr_mask))
      = false) :
    sfc_ef10_tx_reap s = some s := by
  have hstep : sfc_ef10_tx_get_event s =
      (false, s, s.evq_hw_ring (s.evq_read_ptr &&& s.ptr_mask)) := by
    unfold sfc_ef10_tx_get_event
    simp [habs]
  have h2 : s.ptr_mask + 2 = (s.ptr_mask + 1) + 1 := rfl
  have hloop : reapLoop (s.ptr_mask + 2) s (usub s.completed 1)
      = some (s, usub s.completed 1) := by
    rw [h2]
    simp only [reapLoop, hstep]
  rw [reap_eq hloop]
  have hpc : u32 (s.completed + reapDelta s s (usub s.completed 1)) = s.completed := by
    unfold reapDelta
    rw [usub_self, Nat.zero_and, Nat.add_zero]
    exact u32_eq_of_lt hc
  rw [reapPost_eq_of_eq hpc]
  have hq : sfc_ef10_ev_qclear s.evq_hw_ring s.ptr_mask s.evq_read_ptr
      s.evq_read_ptr = s.evq_hw_ring := by
    unfold sfc_ef10_ev_qclear
    rw [usub_self]
    rfl
  rw [hq]

/-- CLAIM C5: when the datapath reads a present event whose type tag is
not the transmit completion tag, it reports no event (so the polling loop
stops), sets the exception flag, and leaves the read cursor in place, so
the offending entry itself stays where the cursor points, available to
the control path. -/
theorem claim_C5_foreign_event_exception (s : Txq)
    (hpres : sfc_ef10_ev_present
      (s.evq_hw_ring (s.evq_read_ptr &&& s.ptr_mask)) = true)
    (hcode : FSF_AZ_EV_CODE (s.evq_hw_ring (s.evq_read_ptr &&& s.ptr_mask))
      ≠ FSE_AZ_EV_CODE_TX_EV) :
    sfc_ef10_tx_get_event s =
      (false, { s with flags := s.flags ||| SFC_EF10_TXQ_EXCEPTION },
        s.evq_hw_ring (s.evq_read_ptr &&& s.ptr_mask)) := by
  unfold sfc_ef10_tx_get_event
  simp [hpres, hcode]

/-- CLAIM C9 (amended): the descriptor builder is a pure function; for
any address representable in the 48 bit address field and any length at
most the maximum descriptor length, the built word decodes back to the
address, the length, the zero type tag, and a continuation flag that is
the negation of the end of packet flag. -/
theorem claim_C9_desc_roundtrip (A L : Nat) (eop : Bool) (hA : A < 2 ^ 48)
    (hL : L ≤ SFC_EF10_TX_DMA_DESC_LEN_MAX) :
    descAddr (sfc_ef10_tx_qdesc_dma_create A L eop) = A ∧
    descByteCnt (sfc_ef10_tx_qdesc_dma_create A L eop) = L ∧
    descTypeTag (sfc_ef10_tx_qdesc_dma_create A L eop) = 0 ∧
    descCont (sfc_ef10_tx_qdesc_dma_create A L eop) = (if eop then 0 else 1) := by
  have hL14 : L < 2 ^ 14 := by
    unfold SFC_EF10_TX_DMA_DESC_LEN_MAX at hL
    omega
  unfold sfc_ef10_tx_qdesc_dma_create descAddr descByteCnt descCont descTypeTag
  rw [Nat.mod_eq_of_lt hA, Nat.mod_eq_of_lt hL14]
  have hor1 : A ||| L <<< 48 = 2 ^ 48 * L + A := by
    rw [Nat.shiftLeft_eq, Nat.mul_comm, Nat.or_comm]
    exact (Nat.mul_add_lt_is_or hA L).symm
  have hfit : 2 ^ 48 * L + A < 2 ^ 62 := by omega
  cases eop with
  | false =>
    have hc1 : (if (false : Bool) = true then (0 : Nat) else 1) = 1 := rfl
    rw [hc1, hor1]
    have h62 : (1 : Nat) <<< 62 = 2 ^ 62 := by
      rw [Nat.shiftLeft_eq, Nat.one_mul]
    rw [h62]
    have hor2 : 2 ^ 48 * L + A ||| 2 ^ 62 = 2 ^ 62 + (2 ^ 48 * L + A) := by
      rw [Nat.or_comm]
      have hx := Nat.mul_add_lt_is_or hfit 1
      rw [Nat.mul_one] at hx
      exact hx.symm
    rw [hor2]
    refine ⟨?_, ?_, ?_, ?_⟩ <;> (try simp only [Nat.shiftRight_eq_div_pow]) <;> omega
  | true =>
    have hc1 : (if (true : Bool) = true then (0 : Nat) else 1) = 0 := rfl
    rw [hc1, hor1]
    have h62 : (0 : Nat) <<< 62 = 0 := by
      rw [Nat.shiftLeft_eq, Nat.zero_mul]
    rw [h62, Nat.or_zero]
    refine ⟨?_, ?_, ?_, ?_⟩ <;> (try simp only [Nat.shiftRight_eq_div_pow]) <;> omega

/-- CLAIM C2: a reap observing k present transmit completion events whose
last (and, completions being ordered, furthest) reported done index is i
releases and clears the shadow slots from the old completed position c up
to c plus the masked gap (i minus (c minus 1)) exclusive, and advances
completed by exactly that amount. -/
theorem claim_C2_reap_batched_completion (s : Txq) (k i : Nat)
    (hp : s.evq_read_ptr < M) (hcm : s.completed < M) (hmask : s.ptr_mask + 1 < M)
    (hk1 : 1 ≤ k) (hk : k ≤ s.ptr_mask + 1)
    (good : ∀ j, j < k → goodAt s j)
    (habs : sfc_ef10_ev_present (evAt s k) = false)
    (hi : ESF_DZ_TX_DESCR_INDX (evAt s (k - 1)) = i) :
    ∃ s2, sfc_ef10_tx_reap s = some s2 ∧
      s2.completed
        = u32 (s.completed + (usub i (usub s.completed 1) &&& s.ptr_mask)) ∧
      (∀ j, j < usub i (usub s.completed 1) &&& s.ptr_mask →
        s2.sw_ring (u32 (s.completed + j) &&& s.ptr_mask) = none) ∧
      (∀ j, j < usub i (usub s.completed 1) &&& s.ptr_mask → ∀ m,
        s.sw_ring (u32 (s.completed + j) &&& s.ptr_mask) = some m →
        m ∈ s2.freed) := by
  have stop : stopAt s k := by
    intro hg
    obtain ⟨h1, h2⟩ := hg
    rw [habs] at h1
    cases h1
  have hrd : runDelta s k = usub i (usub s.completed 1) &&& s.ptr_mask := by
    unfold runDelta runDone
    rw [if_neg (by omega : ¬ k = 0), hi]
  obtain ⟨s2, h1, h2, h3, h4, _⟩ := reap_run s k hp hcm hmask hk good stop
  rw [hrd] at h2 h3 h4
  exact ⟨s2, h1, h2, h3, h4⟩

/-- CLAIM C10: when a reap consumes k good transmit completion events and
then hits a present event of a foreign type, the progress of the k good
events is still applied (buffers freed, shadow slots cleared, completed
advanced by the reported amount, consumed completion slots cleared); the
exception only stops further polling: the flag is set, the cursor stays
on the offending entry and that entry is left intact. -/
theorem claim_C10_exception_keeps_progress (s : Txq) (t k : Nat)
    (ht : t ≤ 32) (hmt : s.ptr_mask = 2 ^ t - 1)
    (hp : s.evq_read_ptr < M) (hcm : s.completed < M) (hmask : s.ptr_mask + 1 < M)
    (hk1 : 1 ≤ k) (hk : k ≤ s.ptr_mask)
    (good : ∀ j, j < k → goodAt s j)
    (hpres : sfc_ef10_ev_present (evAt s k) = true)
    (hcode : FSF_AZ_EV_CODE (evAt s k) ≠ FSE_AZ_EV_CODE_TX_EV) :
    ∃ s2, sfc_ef10_tx_reap s = some s2 ∧
      s2.completed = u32 (s.completed + runDelta s k) ∧
      runDelta s k = usub (ESF_DZ_TX_DESCR_INDX (evAt s (k - 1)))
        (usub s.completed 1) &&& s.ptr_mask ∧
      (∀ j, j < runDelta s k →
        s2.sw_ring (u32 (s.completed + j) &&& s.ptr_mask) = none) ∧
      (∀ j, j < runDelta s k → ∀ m,
        s.sw_ring (u32 (s.completed + j) &&& s.ptr_mask) = some m →
        m ∈ s2.freed) ∧
      s2.flags = s.flags ||| SFC_EF10_TXQ_EXCEPTION ∧
      s2.evq_read_ptr = u32 (s.evq_read_ptr + k) ∧
      (∀ j, j < k →
        s2.evq_hw_ring (u32 (s.evq_read_ptr + j) &&& s.ptr_mask) = EV_ABSENT) ∧
      s2.evq_hw_ring (u32 (s.evq_read_ptr + k) &&& s.ptr_mask)
        = s.evq_hw_ring (u32 (s.evq_read_ptr + k) &&& s.ptr_mask) := by
  have stop : stopAt s k := by
    intro hg
    obtain ⟨h1, h2⟩ := hg
    exact hcode h2
  have hrd : runDelta s k = usub (ESF_DZ_TX_DESCR_INDX (evAt s (k - 1)))
      (usub s.completed 1) &&& s.ptr_mask := by
    unfold runDelta runDone
    rw [if_neg (by omega : ¬ k = 0)]
  obtain ⟨s2, h1, h2, h3, h4, h5, h6, h7, h8, h9, h10⟩ :=
    reap_run s k hp hcm hmask (by omega) good stop
  refine ⟨s2, h1, h2, hrd, h3, h4, ?_, h5, h9, ?_⟩
  · rw [h6, if_pos hpres]
  · apply h10
    intro j hj
    rw [hmt]
    exact pos_distinct ht hj (by omega)

/-! The packet admission loop. -/

theorem evOkAt_mono {ring : Nat → Nat} {c mask B B2 : Nat} (h : B ≤ B2)
    (he : evOkAt ring c mask B) : evOkAt ring c mask B2 :=
  fun i h1 h2 => Nat.le_trans (he i h1 h2) h

theorem segsSum_cons (p : Pkt) (l : List Pkt) :
    segsSum (p :: l) = p.length + segsSum l := by
  simp [segsSum]

theorem segsSum_take_le (l : List Pkt) (n : Nat) : segsSum (l.take n) ≤ segsSum l := by
  conv_rhs => rw [← List.take_append_drop n l]
  unfold segsSum
  rw [List.map_append, List.sum_append]
  exact Nat.le_add_right _ _

theorem writeSegs_spec (segs : List Seg) : ∀ (pl added : Nat) (s : Txq), added < M →
    (writeSegs segs pl added s).2 = u32 (added + segs.length) ∧
    (writeSegs segs pl added s).1.dlog
      = s.dlog ++ specPktDescs segs pl added s.ptr_mask ∧
    (writeSegs segs pl added s).1.flags = s.flags ∧
    (writeSegs segs pl added s).1.ptr_mask = s.ptr_mask ∧
    (writeSegs segs pl added s).1.added = s.added ∧
    (writeSegs segs pl added s).1.completed = s.completed ∧
    (writeSegs segs pl added s).1.free_thresh = s.free_thresh ∧
    (writeSegs segs pl added s).1.evq_read_ptr = s.evq_read_ptr ∧
    (writeSegs segs pl added s).1.sw_ring = s.sw_ring ∧
    (writeSegs segs pl added s).1.evq_hw_ring = s.evq_hw_ring ∧
    (writeSegs segs pl added s).1.slog = s.slog ∧
    (writeSegs segs pl added s).1.dbell = s.dbell ∧
    (writeSegs segs pl added s).1.freed = s.freed := by
  induction segs with
  | nil =>
    intro pl added s h
    refine ⟨?_, by simp [writeSegs, specPktDescs], rfl, rfl, rfl, rfl, rfl, rfl,
      rfl, rfl, rfl, rfl, rfl⟩
    show added = u32 (added + 0)
    rw [Nat.add_zero, u32_eq_of_lt h]
  | cons sg rest ih =>
    intro pl added s h
    have hstep : writeSegs (sg :: rest) pl added s
        = writeSegs rest (usub pl sg.len) (u32 (added + 1))
            { s with
                txq_hw_ring := upd s.txq_hw_ring (added &&& s.ptr_mask)
                  (sfc_ef10_tx_qdesc_dma_create sg.addr sg.len (usub pl sg.len = 0)),
                dlog := s.dlog ++ [(added &&& s.ptr_mask,
                  sfc_ef10_tx_qdesc_dma_create sg.addr sg.len (usub pl sg.len = 0))] } :=
      rfl
    have hspec : specPktDescs (sg :: rest) pl added s.ptr_mask
        = (added &&& s.ptr_mask,
            sfc_ef10_tx_qdesc_dma_create sg.addr sg.len (usub pl sg.len = 0))
          :: specPktDescs rest (usub pl sg.len) (u32 (added + 1)) s.ptr_mask := rfl
    rw [hstep, hspec]
    obtain ⟨h1, h2, h3, h4, h5, h6, h7, h8, h9, h10, h11, h12, h13⟩ :=
      ih (usub pl sg.len) (u32 (added + 1)) _ (u32_lt _)
    refine ⟨?_, ?_, h3, h4, h5, h6, h7, h8, h9, h10, h11, h12, h13⟩
    · rw [h1, u32_add_mod]
      congr 1
      simp
      omega
    · rw [h2]
      simp


theorem limit_lt (n : Nat) : SFC_EF10_TXQ_LIMIT n < M := by
  unfold SFC_EF10_TXQ_LIMIT
  exact usub_lt _ _

theorem descs_max_eq : SFC_EF10_TX_MBUF_SEG_DESCS_MAX = 5 := by decide

/-- Admitting the packet p and continuing with the rest of the batch. -/
theorem xmitAdmit_spec (p : Pkt) (ps : List Pkt) (ih : LoopSpec ps) :
    ∀ (sA : Txq) (added spaceA : Nat) (rdA : Bool) (out : LoopOut),
    (match xmitLoop ps
        (setShadow (writeSegs p (u32 (pktLen p)) added sA).1
          (usub (writeSegs p (u32 (pktLen p)) added sA).2 1
            &&& (writeSegs p (u32 (pktLen p)) added sA).1.ptr_mask) p)
        (writeSegs p (u32 (pktLen p)) added sA).2
        (usub spaceA (usub (writeSegs p (u32 (pktLen p)) added sA).2 added)) rdA with
      | none => (none : Option LoopOut)
      | some o => some ⟨o.txq, o.added, o.reap_done, o.count + 1⟩) = some out →
    added < M → sA.completed < M →
    usub added sA.completed ≤ SFC_EF10_TXQ_LIMIT (sA.ptr_mask + 1) →
    spaceA = SFC_EF10_TXQ_LIMIT (sA.ptr_mask + 1) - usub added sA.completed →
    p.length * SFC_EF10_TX_MBUF_SEG_DESCS_MAX ≤ spaceA →
    (rdA = false → evOkAt sA.evq_hw_ring sA.completed sA.ptr_mask
      (usub added sA.completed)) →
    (out.count ≤ ps.length + 1 ∧
     out.added = u32 (added + segsSum ((p :: ps).take out.count)) ∧
     out.txq.completed < M ∧
     usub out.added out.txq.completed ≤ SFC_EF10_TXQ_LIMIT (sA.ptr_mask + 1) ∧
     out.txq.ptr_mask = sA.ptr_mask ∧
     out.txq.free_thresh = sA.free_thresh ∧
     out.txq.dlog = sA.dlog ++ specBatchLog ((p :: ps).take out.count) added sA.ptr_mask ∧
     out.txq.slog = sA.slog ++ specBatchShadow ((p :: ps).take out.count) added sA.ptr_mask ∧
     ((out.txq.dbell = sA.dbell ∧ out.txq.added = sA.added) ∨
       (∃ e w1, out.txq.dbell = sA.dbell ++ [e] ∧
         w1 ≤ segsSum ((p :: ps).take out.count) ∧
         out.txq.added = u32 (added + w1) ∧ out.txq.added ≠ sA.added)) ∧
     (rdA = true → out.txq.dbell = sA.dbell ∧ out.txq.added = sA.added)) := by
  intro sA added spaceA rdA out h hadded hcm hinv hsp hfit hEv
  obtain ⟨w1, w2, w3, w4, w5, w6, w7, w8, w9, w10, w11, w12, w13⟩ :=
    writeSegs_spec p (u32 (pktLen p)) added sA hadded
  have hL_lt : SFC_EF10_TXQ_LIMIT (sA.ptr_mask + 1) < M := limit_lt _
  have hLp5 : p.length ≤ p.length * SFC_EF10_TX_MBUF_SEG_DESCS_MAX := by
    rw [descs_max_eq]
    omega
  have hdiffLp : usub added sA.completed + p.length
      ≤ SFC_EF10_TXQ_LIMIT (sA.ptr_mask + 1) := by omega
  have hLp_lt : p.length < M := by omega
  have hnd : usub (writeSegs p (u32 (pktLen p)) added sA).2 sA.completed
      = usub added sA.completed + p.length := by
    rw [w1, usub_u32_add]
    exact u32_eq_of_lt (by omega)
  have haa : usub (writeSegs p (u32 (pktLen p)) added sA).2 added = p.length := by
    rw [w1, usub_u32_add_cancel]
    exact u32_eq_of_lt hLp_lt
  have hsp_lt : spaceA < M := by omega
  have hsprec : usub spaceA (usub (writeSegs p (u32 (pktLen p)) added sA).2 added)
      = SFC_EF10_TXQ_LIMIT (sA.ptr_mask + 1)
        - (usub added sA.completed + p.length) := by
    rw [haa, usub_eq_sub (by omega) hsp_lt]
    omega
  cases hrec : xmitLoop ps
      (setShadow (writeSegs p (u32 (pktLen p)) added sA).1
        (usub (writeSegs p (u32 (pktLen p)) added sA).2 1
          &&& (writeSegs p (u32 (pktLen p)) added sA).1.ptr_mask) p)
      (writeSegs p (u32 (pktLen p)) added sA).2
      (usub spaceA (usub (writeSegs p (u32 (pktLen p)) added sA).2 added)) rdA with
  | none => rw [hrec] at h; cases h
  | some o =>
    rw [hrec] at h
    have hout : (⟨o.txq, o.added, o.reap_done, o.count + 1⟩ : LoopOut) = out := by
      injection h
    subst hout
    obtain ⟨c1, c2, c3, c4, c5, c6, c7, c8, c9, c10⟩ := ih _ _ _ _ _ hrec
      (by rw [w1]; exact u32_lt _)
      (by show (writeSegs p (u32 (pktLen p)) added sA).1.completed < M
          rw [w6]
          exact hcm)
      (by show usub (writeSegs p (u32 (pktLen p)) added sA).2
            (writeSegs p (u32 (pktLen p)) added sA).1.completed
            ≤ SFC_EF10_TXQ_LIMIT ((writeSegs p (u32 (pktLen p)) added sA).1.ptr_mask + 1)
          rw [w6, w4, hnd]
          exact hdiffLp)
      (by show usub spaceA (usub (writeSegs p (u32 (pktLen p)) added sA).2 added)
            = SFC_EF10_TXQ_LIMIT ((writeSegs p (u32 (pktLen p)) added sA).1.ptr_mask + 1)
            - usub (writeSegs p (u32 (pktLen p)) added sA).2
                (writeSegs p (u32 (pktLen p)) added sA).1.completed
          rw [w6, w4, hnd, hsprec])
      (by intro hrdA
          show evOkAt (writeSegs p (u32 (pktLen p)) added sA).1.evq_hw_ring
            (writeSegs p (u32 (pktLen p)) added sA).1.completed
            (writeSegs p (u32 (pktLen p)) added sA).1.ptr_mask
            (usub (writeSegs p (u32 (pktLen p)) added sA).2
              (writeSegs p (u32 (pktLen p)) added sA).1.completed)
          rw [w10, w6, w4, hnd]
          exact evOkAt_mono (Nat.le_add_right _ _) (hEv hrdA))
    have hmask3 : (setShadow (writeSegs p (u32 (pktLen p)) added sA).1
        (usub (writeSegs p (u32 (pktLen p)) added sA).2 1
          &&& (writeSegs p (u32 (pktLen p)) added sA).1.ptr_mask) p).ptr_mask
        = sA.ptr_mask := w4
    have htake : (p :: ps).take (o.count + 1) = p :: ps.take o.count :=
      List.take_succ_cons
    have hsum : segsSum ((p :: ps).take (o.count + 1))
        = p.length + segsSum (ps.take o.count) := by
      rw [htake, segsSum_cons]
    refine ⟨by simpa using Nat.add_le_add_right c1 1, ?_, c3, ?_, ?_, ?_, ?_, ?_, ?_, ?_⟩
    · show o.added = _
      rw [c2, w1, u32_add_mod, hsum]
      congr 1
      omega
    · show usub o.added o.txq.completed ≤ _
      rw [hmask3] at c4
      exact c4
    · show o.txq.ptr_mask = _
      rw [c5, hmask3]
    · show o.txq.free_thresh = _
      rw [c6]
      exact w7
    · show o.txq.dlog = _
      rw [c7]
      show (writeSegs p (u32 (pktLen p)) added sA).1.dlog ++ _ = _
      rw [w2, hmask3, htake, w1]
      show _ = sA.dlog ++ (specPktDescs p (u32 (pktLen p)) added sA.ptr_mask
        ++ specBatchLog (ps.take o.count) (u32 (added + p.length)) sA.ptr_mask)
      rw [List.append_assoc]
    · show o.txq.slog = _
      rw [c8]
      show ((writeSegs p (u32 (pktLen p)) added sA).1.slog
        ++ [(usub (writeSegs p (u32 (pktLen p)) added sA).2 1
              &&& (writeSegs p (u32 (pktLen p)) added sA).1.ptr_mask, p)]) ++ _ = _
      rw [hmask3, w11, w4, htake, w1]
      show _ = sA.slog ++ ((usub (u32 (added + p.length)) 1 &&& sA.ptr_mask, p)
        :: specBatchShadow (ps.take o.count) (u32 (added + p.length)) sA.ptr_mask)
      rw [List.append_assoc]
      rfl
    · rcases c9 with ⟨cd, ca⟩ | ⟨e, wp, cd, cw, ca, cne⟩
      · left
        constructor
        · show o.txq.dbell = _
          rw [cd]
          exact w12
        · show o.txq.added = _
          rw [ca]
          exact w5
      · right
        refine ⟨e, p.length + wp, ?_, ?_, ?_, ?_⟩
        · show o.txq.dbell = _
          rw [cd]
          show (writeSegs p (u32 (pktLen p)) added sA).1.dbell ++ [e] = _
          rw [w12]
        · rw [hsum]
          omega
        · show o.txq.added = _
          rw [ca, w1, u32_add_mod]
          congr 1
          omega
        · show o.txq.added ≠ sA.added
          rw [← w5]
          exact cne
    · intro hrdA
      obtain ⟨cd, ca⟩ := c10 hrdA
      constructor
      · show o.txq.dbell = _
        rw [cd]
        exact w12
      · show o.txq.added = _
        rw [ca]
        exact w5

/-- The packet admission loop satisfies its behavioural contract. -/
theorem xmitLoop_spec : ∀ pkts : List Pkt, LoopSpec pkts := by
  intro pkts
  induction pkts with
  | nil =>
    intro s added space rd out h hadded hcm hinv hsp hEv
    have h2 : some (⟨s, added, rd, 0⟩ : LoopOut) = some out := h
    injection h2 with h3
    subst h3
    refine ⟨Nat.le_refl 0, ?_, hcm, hinv, rfl, rfl, by simp [specBatchLog], by
      simp [specBatchShadow], Or.inl ⟨rfl, rfl⟩, fun _ => ⟨rfl, rfl⟩⟩
    show added = u32 (added + segsSum [])
    show added = u32 (added + 0)
    rw [Nat.add_zero, u32_eq_of_lt hadded]
  | cons p ps ih =>
    intro s added space rd out h hadded hcm hinv hsp hEv
    have hL_lt : SFC_EF10_TXQ_LIMIT (s.ptr_mask + 1) < M := limit_lt _
    have hdiff_lt : usub added s.completed < M := usub_lt _ _
    unfold xmitLoop at h
    by_cases hfit : p.length * SFC_EF10_TX_MBUF_SEG_DESCS_MAX > space
    · rw [if_pos hfit] at h
      cases rd with
      | true =>
        rw [if_pos rfl] at h
        have h2 : some (⟨s, added, true, 0⟩ : LoopOut) = some out := h
        injection h2 with h3
        subst h3
        refine ⟨Nat.zero_le _, ?_, hcm, hinv, rfl, rfl, by simp [specBatchLog], by
          simp [specBatchShadow], Or.inl ⟨rfl, rfl⟩, fun _ => ⟨rfl, rfl⟩⟩
        show added = u32 (added + segsSum [])
        show added = u32 (added + 0)
        rw [Nat.add_zero, u32_eq_of_lt hadded]
      | false =>
        rw [if_neg (by simp)] at h
        dsimp only at h
        have hEvF := hEv rfl
        have hrest : ∀ T1 : Txq,
            T1.completed = s.completed → T1.ptr_mask = s.ptr_mask →
            T1.free_thresh = s.free_thresh → T1.evq_hw_ring = s.evq_hw_ring →
            T1.dlog = s.dlog → T1.slog = s.slog →
            (match sfc_ef10_tx_reap T1 with
              | none => (none : Option LoopOut)
              | some txq2 =>
                if p.length * SFC_EF10_TX_MBUF_SEG_DESCS_MAX >
                    usub (SFC_EF10_TXQ_LIMIT (txq2.ptr_mask + 1))
                      (usub added txq2.completed) then
                  some ⟨txq2, added, true, 0⟩
                else
                  match xmitLoop ps
                      (setShadow (writeSegs p (u32 (pktLen p)) added txq2).1
                        (usub (writeSegs p (u32 (pktLen p)) added txq2).2 1
                          &&& (writeSegs p (u32 (pktLen p)) added txq2).1.ptr_mask) p)
                      (writeSegs p (u32 (pktLen p)) added txq2).2
                      (usub (usub (SFC_EF10_TXQ_LIMIT (txq2.ptr_mask + 1))
                          (usub added txq2.completed))
                        (usub (writeSegs p (u32 (pktLen p)) added txq2).2 added)) true with
                  | none => none
                  | some o => some ⟨o.txq, o.added, o.reap_done, o.count + 1⟩) = some out →
            (out.count ≤ (p :: ps).length ∧
             out.added = u32 (added + segsSum ((p :: ps).take out.count)) ∧
             out.txq.completed < M ∧
             usub out.added out.txq.completed ≤ SFC_EF10_TXQ_LIMIT (s.ptr_mask + 1) ∧
             out.txq.ptr_mask = s.ptr_mask ∧
             out.txq.free_thresh = s.free_thresh ∧
             out.txq.dlog = s.dlog ++ specBatchLog ((p :: ps).take out.count) added s.ptr_mask ∧
             out.txq.slog = s.slog
               ++ specBatchShadow ((p :: ps).take out.count) added s.ptr_mask ∧
             (out.txq.dbell = T1.dbell ∧ out.txq.added = T1.added)) := by
          intro T1 hc1 hm1 ht1 hev1 hdl1 hsl1 hmm
          cases hreap : sfc_ef10_tx_reap T1 with
          | none => rw [hreap] at hmm; cases hmm
          | some txq2 =>
            rw [hreap] at hmm
            dsimp only at hmm
            obtain ⟨d, hd_mask, hd_c, hd_char, hd_a, hd_m, hd_t, hd_dl, hd_sl,
              hd_db, hd_fl⟩ := reap_bound hreap
            rw [hc1] at hd_c
            have hd_le : d ≤ usub added s.completed := by
              rcases hd_char with rfl | ⟨i, hi1, hi2, hi3⟩
              · exact Nat.zero_le _
              · rw [hev1] at hi1 hi2 hi3
                rw [hi3, hc1, hm1]
                exact hEvF i hi1 hi2
            have hnewdiff : usub added txq2.completed
                = usub added s.completed - d := by
              rw [hd_c, usub_u32_add_right]
              exact usub_sub_of_le hd_le hdiff_lt
            have hmask2 : txq2.ptr_mask = s.ptr_mask := by rw [hd_m, hm1]
            have hsp2 : usub (SFC_EF10_TXQ_LIMIT (txq2.ptr_mask + 1))
                (usub added txq2.completed)
                = SFC_EF10_TXQ_LIMIT (s.ptr_mask + 1)
                  - (usub added s.completed - d) := by
              rw [hmask2, hnewdiff]
              exact usub_eq_sub (by omega) hL_lt
            by_cases hfit2 : p.length * SFC_EF10_TX_MBUF_SEG_DESCS_MAX >
                usub (SFC_EF10_TXQ_LIMIT (txq2.ptr_mask + 1)) (usub added txq2.completed)
            · rw [if_pos hfit2] at hmm
              have h2 : some (⟨txq2, added, true, 0⟩ : LoopOut) = some out := hmm
              injection h2 with h3
              subst h3
              refine ⟨Nat.zero_le _, ?_, by rw [hd_c]; exact u32_lt _, ?_, ?_, ?_,
                ?_, ?_, ?_⟩
              · show added = u32 (added + segsSum [])
                show added = u32 (added + 0)
                rw [Nat.add_zero, u32_eq_of_lt hadded]
              · show usub added txq2.completed ≤ _
                rw [hnewdiff]
                omega
              · exact hmask2
              · show txq2.free_thresh = _
                rw [hd_t, ht1]
              · show txq2.dlog = _
                rw [hd_dl, hdl1]
                simp [specBatchLog]
              · show txq2.slog = _
                rw [hd_sl, hsl1]
                simp [specBatchShadow]
              · exact ⟨hd_db, hd_a⟩
            · rw [if_neg hfit2] at hmm
              obtain ⟨a1, a2, a3, a4, a5, a6, a7, a8, a9, a10⟩ :=
                xmitAdmit_spec p ps ih txq2 added
                  (usub (SFC_EF10_TXQ_LIMIT (txq2.ptr_mask + 1))
                    (usub added txq2.completed)) true out hmm hadded
                  (by rw [hd_c]; exact u32_lt _)
                  (by rw [hnewdiff, hmask2]; omega)
                  (by rw [hsp2, hmask2, hnewdiff])
                  (by omega)
                  (by intro hx; cases hx)
              obtain ⟨b1, b2⟩ := a10 rfl
              refine ⟨by simpa using a1, a2, a3, ?_, ?_, ?_, ?_, ?_, ?_⟩
              · rw [hmask2] at a4
                exact a4
              · rw [a5, hmask2]
              · rw [a6, hd_t, ht1]
              · rw [a7, hd_dl, hdl1, hmask2]
              · rw [a8, hd_sl, hsl1, hmask2]
              · rw [b1, b2, hd_db, hd_a]
                exact ⟨rfl, rfl⟩
        by_cases hpush : added ≠ s.added
        · rw [if_pos hpush] at h
          have hres := hrest { sfc_ef10_tx_qpush s added s.added with added := added }
            rfl rfl rfl rfl rfl rfl h
          obtain ⟨b1, b2, b3, b4, b5, b6, b7, b8, b9, b10⟩ := hres
          refine ⟨b1, b2, b3, b4, b5, b6, b7, b8, ?_, ?_⟩
          · right
            refine ⟨(added &&& s.ptr_mask,
              s.txq_hw_ring (s.added &&& s.ptr_mask)), 0, ?_, Nat.zero_le _, ?_, ?_⟩
            · rw [b9]
              rfl
            · rw [b10]
              show added = u32 (added + 0)
              rw [Nat.add_zero, u32_eq_of_lt hadded]
            · rw [b10]
              exact hpush
          · intro hx
            cases hx
        · rw [if_neg hpush] at h
          have hres := hrest s rfl rfl rfl rfl rfl rfl h
          obtain ⟨b1, b2, b3, b4, b5, b6, b7, b8, b9, b10⟩ := hres
          exact ⟨b1, b2, b3, b4, b5, b6, b7, b8, Or.inl ⟨b9, b10⟩, fun hx => by cases hx⟩
    · rw [if_neg hfit] at h
      dsimp only at h
      exact xmitAdmit_spec p ps ih s added space rd out h hadded hcm hinv hsp
        (by omega) hEv

/-- Behaviour of a full burst transmit call: prefix admission with exact
write and shadow traces, preservation of the occupancy invariant, and at
most two doorbell writes, none exactly when no descriptor was appended. -/
theorem xmit_spec {s : Txq} {pkts : List Pkt} {s2 : Txq} {n : Nat}
    (h : sfc_ef10_xmit_pkts s pkts = some (s2, n))
    (hadded : s.added < M) (hcm : s.completed < M)
    (hinv : usub s.added s.completed ≤ SFC_EF10_TXQ_LIMIT (s.ptr_mask + 1))
    (hEv : evOk s) :
    n ≤ pkts.length ∧
    s2.added = u32 (s.added + segsSum (pkts.take n)) ∧
    s2.added < M ∧ s2.completed < M ∧
    usub s2.added s2.completed ≤ SFC_EF10_TXQ_LIMIT (s2.ptr_mask + 1) ∧
    s2.ptr_mask = s.ptr_mask ∧ s2.free_thresh = s.free_thresh ∧
    s2.dlog = s.dlog ++ specBatchLog (pkts.take n) s.added s.ptr_mask ∧
    s2.slog = s.slog ++ specBatchShadow (pkts.take n) s.added s.ptr_mask ∧
    (∃ dl, s2.dbell = s.dbell ++ dl ∧ dl.length ≤ 2 ∧
      (dl = [] → s2.added = s.added) ∧
      (dl ≠ [] → 1 ≤ segsSum (pkts.take n))) := by
  have hL_lt : SFC_EF10_TXQ_LIMIT (s.ptr_mask + 1) < M := limit_lt _
  have hdiff_lt : usub s.added s.completed < M := usub_lt _ _
  unfold sfc_ef10_xmit_pkts at h
  by_cases hflag : s.flags &&& (SFC_EF10_TXQ_NOT_RUNNING ||| SFC_EF10_TXQ_EXCEPTION) ≠ 0
  · rw [if_pos hflag] at h
    have h2 : (s, 0) = (s2, n) := by injection h
    have hs2 : s = s2 := congrArg Prod.fst h2
    have hn : 0 = n := congrArg Prod.snd h2
    subst hs2
    subst hn
    refine ⟨Nat.zero_le _, ?_, hadded, hcm, hinv, rfl, rfl, by simp [specBatchLog],
      by simp [specBatchShadow], [], by simp, by simp, fun _ => rfl, by simp⟩
    show s.added = u32 (s.added + segsSum [])
    show s.added = u32 (s.added + 0)
    rw [Nat.add_zero, u32_eq_of_lt hadded]
  · rw [if_neg hflag] at h
    dsimp only at h
    have hpost : ∀ (T1 : Txq) (rdB : Bool) (space1 : Nat),
        T1.completed = s.completed + 0 ∨ T1.completed < M →
        T1.completed < M →
        usub s.added T1.completed ≤ SFC_EF10_TXQ_LIMIT (s.ptr_mask + 1) →
        space1 = SFC_EF10_TXQ_LIMIT (s.ptr_mask + 1) - usub s.added T1.completed →
        T1.ptr_mask = s.ptr_mask → T1.free_thresh = s.free_thresh →
        T1.dlog = s.dlog → T1.slog = s.slog → T1.added = s.added →
        T1.dbell = s.dbell →
        (rdB = false → evOkAt T1.evq_hw_ring T1.completed T1.ptr_mask
          (usub s.added T1.completed)) →
        (match xmitLoop pkts T1 s.added space1 rdB with
          | none => (none : Option (Txq × Nat))
          | some o =>
            match (if SFC_TX_XMIT_PKTS_REAP_AT_LEAST_ONCE = true
                ∧ o.reap_done = false then
                sfc_ef10_tx_reap (if o.added ≠ o.txq.added then
                  { sfc_ef10_tx_qpush o.txq o.added o.txq.added with added := o.added }
                else o.txq)
              else some (if o.added ≠ o.txq.added then
                  { sfc_ef10_tx_qpush o.txq o.added o.txq.added with added := o.added }
                else o.txq)) with
            | none => none
            | some txq3 => some (txq3, o.count)) = some (s2, n) →
        (n ≤ pkts.length ∧
         s2.added = u32 (s.added + segsSum (pkts.take n)) ∧
         s2.added < M ∧ s2.completed < M ∧
         usub s2.added s2.completed ≤ SFC_EF10_TXQ_LIMIT (s2.ptr_mask + 1) ∧
         s2.ptr_mask = s.ptr_mask ∧ s2.free_thresh = s.free_thresh ∧
         s2.dlog = s.dlog ++ specBatchLog (pkts.take n) s.added s.ptr_mask ∧
         s2.slog = s.slog ++ specBatchShadow (pkts.take n) s.added s.ptr_mask ∧
         (∃ dl, s2.dbell = s.dbell ++ dl ∧ dl.length ≤ 2 ∧
           (dl = [] → s2.added = s.added) ∧
           (dl ≠ [] → 1 ≤ segsSum (pkts.take n)))) := by
      intro T1 rdB space1 _ hTc hTinv hTsp hTm hTt hTdl hTsl hTa hTdb hTev hmm
      cases hloop : xmitLoop pkts T1 s.added space1 rdB with
      | none => rw [hloop] at hmm; cases hmm
      | some o =>
        rw [hloop] at hmm
        dsimp only at hmm
        rw [if_neg (by simp [SFC_TX_XMIT_PKTS_REAP_AT_LEAST_ONCE])] at hmm
        obtain ⟨c1, c2, c3, c4, c5, c6, c7, c8, c9, c10⟩ :=
          xmitLoop_spec pkts T1 s.added space1 rdB o hloop hadded hTc
            (by rw [hTm]; exact hTinv) (by rw [hTm, hTsp]) (by
              intro hx
              rw [hTm] at *
              exact hTev hx)
        have hw_pos : o.added ≠ s.added → 1 ≤ segsSum (pkts.take o.count) := by
          intro hne
          by_contra hw0
          have hw00 : segsSum (pkts.take o.count) = 0 := by omega
          rw [hw00, Nat.add_zero, u32_eq_of_lt hadded] at c2
          exact hne c2
        by_cases hfp : o.added ≠ o.txq.added
        · rw [if_pos hfp] at hmm
          have h2 : ({ sfc_ef10_tx_qpush o.txq o.added o.txq.added with
              added := o.added }, o.count) = (s2, n) := by injection hmm
          have hs2 : ({ sfc_ef10_tx_qpush o.txq o.added o.txq.added with
              added := o.added } : Txq) = s2 := congrArg Prod.fst h2
          have hn : o.count = n := congrArg Prod.snd h2
          subst hs2
          subst hn
          rcases c9 with ⟨cd, ca⟩ | ⟨e, wp, cd, cw, cadd, cne⟩
          · refine ⟨c1, c2, by rw [c2]; exact u32_lt _, c3, ?_, ?_, ?_, ?_, ?_,
              [(o.added &&& o.txq.ptr_mask,
                o.txq.txq_hw_ring (o.txq.added &&& o.txq.ptr_mask))], ?_, by simp,
              by simp, ?_⟩
            · show usub o.added o.txq.completed ≤ _
              show usub o.added o.txq.completed
                ≤ SFC_EF10_TXQ_LIMIT (o.txq.ptr_mask + 1)
              rw [c5, hTm]
              rw [hTm] at c4
              exact c4
            · show o.txq.ptr_mask = _
              rw [c5, hTm]
            · show o.txq.free_thresh = _
              rw [c6, hTt]
            · show o.txq.dlog = _
              rw [c7, hTdl, hTm]
            · show o.txq.slog = _
              rw [c8, hTsl, hTm]
            · show o.txq.dbell ++ _ = _
              rw [cd, hTdb]
            · intro _
              apply hw_pos
              rw [ca, hTa] at hfp
              exact hfp
          · refine ⟨c1, c2, by rw [c2]; exact u32_lt _, c3, ?_, ?_, ?_, ?_, ?_,
              e :: [(o.added &&& o.txq.ptr_mask,
                o.txq.txq_hw_ring (o.txq.added &&& o.txq.ptr_mask))], ?_, by simp,
              by simp, ?_⟩
            · show usub o.added o.txq.completed ≤ SFC_EF10_TXQ_LIMIT (o.txq.ptr_mask + 1)
              rw [c5, hTm]
              rw [hTm] at c4
              exact c4
            · show o.txq.ptr_mask = _
              rw [c5, hTm]
            · show o.txq.free_thresh = _
              rw [c6, hTt]
            · show o.txq.dlog = _
              rw [c7, hTdl, hTm]
            · show o.txq.slog = _
              rw [c8, hTsl, hTm]
            · show o.txq.dbell ++ _ = _
              rw [cd, hTdb, List.append_assoc]
              rfl
            · intro _
              have hw1 : 1 ≤ wp := by
                by_contra hw0
                have hw00 : wp = 0 := by omega
                rw [hw00, Nat.add_zero, u32_eq_of_lt hadded] at cadd
                rw [hTa] at cne
                exact cne cadd
              omega
        · rw [if_neg hfp] at hmm
          have hfp2 : o.added = o.txq.added := by
            by_contra hx
            exact hfp hx
          have h2 : (o.txq, o.count) = (s2, n) := by injection hmm
          have hs2 : o.txq = s2 := congrArg Prod.fst h2
          have hn : o.count = n := congrArg Prod.snd h2
          subst hs2
          subst hn
          have hadd2 : o.txq.added = u32 (s.added + segsSum (pkts.take o.count)) := by
            rw [← hfp2]
            exact c2
          rcases c9 with ⟨cd, ca⟩ | ⟨e, wp, cd, cw, cadd, cne⟩
          · refine ⟨c1, hadd2, by rw [hadd2]; exact u32_lt _, c3, ?_, ?_, ?_, ?_, ?_,
              [], ?_, by simp, ?_, by simp⟩
            · show usub o.txq.added o.txq.completed ≤ SFC_EF10_TXQ_LIMIT (o.txq.ptr_mask + 1)
              rw [← hfp2, c5, hTm]
              rw [hTm] at c4
              exact c4
            · rw [c5, hTm]
            · rw [c6, hTt]
            · rw [c7, hTdl, hTm]
            · rw [c8, hTsl, hTm]
            · rw [cd, hTdb]
              simp
            · intro _
              rw [ca, hTa]
          · refine ⟨c1, hadd2, by rw [hadd2]; exact u32_lt _, c3, ?_, ?_, ?_, ?_, ?_,
              [e], ?_, by simp, by simp, ?_⟩
            · show usub o.txq.added o.txq.completed ≤ SFC_EF10_TXQ_LIMIT (o.txq.ptr_mask + 1)
              rw [← hfp2, c5, hTm]
              rw [hTm] at c4
              exact c4
            · rw [c5, hTm]
            · rw [c6, hTt]
            · rw [c7, hTdl, hTm]
            · rw [c8, hTsl, hTm]
            · rw [cd, hTdb]
            · intro _
              have hw1 : 1 ≤ wp := by
                by_contra hw0
                have hw00 : wp = 0 := by omega
                rw [hw00, Nat.add_zero, u32_eq_of_lt hadded] at cadd
                rw [hTa] at cne
                exact cne cadd
              omega
    simp only [decide_eq_true_eq] at h
    by_cases hrd : usub (SFC_EF10_TXQ_LIMIT (s.ptr_mask + 1))
        (usub s.added s.completed) < s.free_thresh
    · simp only [if_pos hrd, decide_eq_true hrd] at h
      cases hreapI : sfc_ef10_tx_reap s with
      | none => rw [hreapI] at h; cases h
      | some T1 =>
        rw [hreapI] at h
        dsimp only at h
        obtain ⟨d, hd_mask, hd_c, hd_char, hd_a, hd_m, hd_t, hd_dl, hd_sl,
          hd_db, hd_fl⟩ := reap_bound hreapI
        have hd_le : d ≤ usub s.added s.completed := by
          rcases hd_char with rfl | ⟨i, hi1, hi2, hi3⟩
          · exact Nat.zero_le _
          · rw [hi3]
            exact hEv i hi1 hi2
        have hnewdiff : usub s.added T1.completed
            = usub s.added s.completed - d := by
          rw [hd_c, usub_u32_add_right]
          exact usub_sub_of_le hd_le hdiff_lt
        exact hpost T1 true
          (usub (SFC_EF10_TXQ_LIMIT (T1.ptr_mask + 1)) (usub s.added T1.completed))
          (Or.inr (by rw [hd_c]; exact u32_lt _))
          (by rw [hd_c]; exact u32_lt _)
          (by rw [hnewdiff]; omega)
          (by rw [hd_m, hnewdiff]
              exact usub_eq_sub (by omega) hL_lt)
          hd_m hd_t hd_dl hd_sl hd_a hd_db
          (by intro hx; cases hx) h
    · simp only [if_neg hrd, decide_eq_false hrd] at h
      exact hpost s false
        (usub (SFC_EF10_TXQ_LIMIT (s.ptr_mask + 1)) (usub s.added s.completed))
        (Or.inr hcm) hcm hinv
        (usub_eq_sub hinv hL_lt) rfl rfl rfl rfl rfl rfl
        (fun _ => hEv) h

theorem or_four_and_six_ne (x : Nat) : (x ||| 4) &&& 6 ≠ 0 := by
  intro h
  have h4 : ((x ||| 4) &&& 6).testBit 2 = true := by
    rw [Nat.testBit_and, Nat.testBit_or]
    rw [(by decide : Nat.testBit 4 2 = true), (by decide : Nat.testBit 6 2 = true)]
    simp
  rw [h] at h4
  simp at h4

theorem or_two_and_six_ne (x : Nat) : (x ||| 2) &&& 6 ≠ 0 := by
  intro h
  have h4 : ((x ||| 2) &&& 6).testBit 1 = true := by
    rw [Nat.testBit_and, Nat.testBit_or]
    rw [(by decide : Nat.testBit 2 1 = true), (by decide : Nat.testBit 6 1 = true)]
    simp
  rw [h] at h4
  simp at h4

/-- CLAIM C6: while the not running or exception flag is set, a transmit
call accepts nothing: it returns the state unchanged with count zero, so
every further transmit call does the same; a reap and a stop keep the
queue blocked (a reap never clears either flag, a stop sets not running),
and a start unblocks it, clearing both not running and exception. -/
theorem claim_C6_exception_blocks_transmit (s : Txq) (pkts : List Pkt) (a b : Nat)
    (h : s.flags &&& (SFC_EF10_TXQ_NOT_RUNNING ||| SFC_EF10_TXQ_EXCEPTION) ≠ 0) :
    sfc_ef10_xmit_pkts s pkts = some (s, 0) ∧
    (∀ s2, sfc_ef10_tx_reap s = some s2 →
      s2.flags &&& (SFC_EF10_TXQ_NOT_RUNNING ||| SFC_EF10_TXQ_EXCEPTION) ≠ 0) ∧
    (sfc_ef10_tx_qstop s).1.flags
      &&& (SFC_EF10_TXQ_NOT_RUNNING ||| SFC_EF10_TXQ_EXCEPTION) ≠ 0 ∧
    (sfc_ef10_tx_qstart s a b).flags
      &&& (SFC_EF10_TXQ_NOT_RUNNING ||| SFC_EF10_TXQ_EXCEPTION) = 0 := by
  refine ⟨?_, ?_, ?_, ?_⟩
  · unfold sfc_ef10_xmit_pkts
    rw [if_pos h]
  · intro s2 h2
    obtain ⟨d, _, _, _, _, _, _, _, _, _, hfl⟩ := reap_bound h2
    rcases hfl with hfl | hfl <;> rw [hfl]
    · exact h
    · rw [(by decide : SFC_EF10_TXQ_NOT_RUNNING ||| SFC_EF10_TXQ_EXCEPTION = 6)]
      exact or_four_and_six_ne s.flags
  · show (s.flags ||| SFC_EF10_TXQ_NOT_RUNNING)
      &&& (SFC_EF10_TXQ_NOT_RUNNING ||| SFC_EF10_TXQ_EXCEPTION) ≠ 0
    rw [(by decide : SFC_EF10_TXQ_NOT_RUNNING ||| SFC_EF10_TXQ_EXCEPTION = 6)]
    exact or_two_and_six_ne s.flags
  · show ((s.flags ||| SFC_EF10_TXQ_STARTED)
      &&& (M - 1 - (SFC_EF10_TXQ_NOT_RUNNING ||| SFC_EF10_TXQ_EXCEPTION)))
      &&& (SFC_EF10_TXQ_NOT_RUNNING ||| SFC_EF10_TXQ_EXCEPTION) = 0
    rw [(by decide : M - 1 - (SFC_EF10_TXQ_NOT_RUNNING ||| SFC_EF10_TXQ_EXCEPTION)
      = 4294967289)]
    rw [(by decide : SFC_EF10_TXQ_NOT_RUNNING ||| SFC_EF10_TXQ_EXCEPTION = 6)]
    rw [Nat.and_assoc, (by decide : (4294967289 : Nat) &&& 6 = 0), Nat.and_zero]

theorem claim_C6_exception_blocks_transmit_witness :
    sfc_ef10_xmit_pkts demoC6 [pkt4] = some (demoC6, 0) ∧
    (∀ s2, sfc_ef10_tx_reap demoC6 = some s2 →
      s2.flags &&& (SFC_EF10_TXQ_NOT_RUNNING ||| SFC_EF10_TXQ_EXCEPTION) ≠ 0) ∧
    (sfc_ef10_tx_qstop demoC6).1.flags
      &&& (SFC_EF10_TXQ_NOT_RUNNING ||| SFC_EF10_TXQ_EXCEPTION) ≠ 0 ∧
    (sfc_ef10_tx_qstart demoC6 0 0).flags
      &&& (SFC_EF10_TXQ_NOT_RUNNING ||| SFC_EF10_TXQ_EXCEPTION) = 0 :=
  claim_C6_exception_blocks_transmit demoC6 [pkt4] 0 0 (by decide)

/-- The three counters of every reachable state stay below the modulus and
keep the outstanding difference within the queue limit. -/
theorem reach_counters (s : Txq) (hr : Reach s) :
    s.added < M ∧ s.completed < M ∧
    usub s.added s.completed ≤ SFC_EF10_TXQ_LIMIT (s.ptr_mask + 1) := by
  induction hr with
  | init s0 a b t ht hm =>
    refine ⟨u32_lt _, u32_lt _, ?_⟩
    show usub (u32 b) (u32 b) ≤ _
    rw [usub_self]
    exact Nat.zero_le _
  | step u v hru hsv ih =>
    obtain ⟨ha, hc, hinv⟩ := ih
    cases hsv with
    | start a b =>
      refine ⟨u32_lt _, u32_lt _, ?_⟩
      show usub (u32 b) (u32 b) ≤ _
      rw [usub_self]
      exact Nat.zero_le _
    | xmit pkts w n hEv h =>
      obtain ⟨_, _, c3, c4, c5, _⟩ := xmit_spec h ha hc hinv hEv
      exact ⟨c3, c4, c5⟩
    | reap w hEv h =>
      obtain ⟨d, hdm, hdc, hdchar, hda, hdpm, _, _, _, _, _⟩ := reap_bound h
      have hdle : d ≤ usub u.added u.completed := by
        rcases hdchar with rfl | ⟨i, hi1, hi2, hi3⟩
        · exact Nat.zero_le _
        · rw [hi3]
          exact hEv i hi1 hi2
      refine ⟨by rw [hda]; exact ha, by rw [hdc]; exact u32_lt _, ?_⟩
      rw [hda, hdc, hdpm, usub_u32_add_right,
        usub_sub_of_le hdle (usub_lt _ _)]
      omega

/-- CLAIM C1: on every reachable state of a queue of power of two
capacity, produced from a start by any sequence of start, transmit and
reap calls under the hardware legality assumption, the outstanding
difference added minus completed never exceeds the usable capacity
(capacity minus the reserved slots), so the descriptor ring never
overfills. -/
theorem claim_C1_ring_never_overfills (s : Txq) (hr : Reach s) :
    usub s.added s.completed ≤ SFC_EF10_TXQ_LIMIT (s.ptr_mask + 1) :=
  (reach_counters s hr).2.2

theorem claim_C1_ring_never_overfills_witness :
    usub (sfc_ef10_tx_qstart demoBase 0 0).added
      (sfc_ef10_tx_qstart demoBase 0 0).completed
      ≤ SFC_EF10_TXQ_LIMIT ((sfc_ef10_tx_qstart demoBase 0 0).ptr_mask + 1) :=
  claim_C1_ring_never_overfills _ (Reach.init demoBase 0 0 5 (by decide) (by decide))

/-- An all absent event ring satisfies the hardware legality assumption
vacuously. -/
theorem evOkAt_absent (c mask B : Nat) : evOkAt evAbsent c mask B := by
  intro i h1 _
  have hx : evAbsent i = EV_ABSENT := rfl
  rw [hx] at h1
  exact absurd h1 (by decide)

theorem evOk_demoC3 : evOk demoC3 :=
  evOkAt_absent demoC3.completed demoC3.ptr_mask
    (usub demoC3.added demoC3.completed)

/-- CLAIM C3 counterexample: a call on a batch that fits entirely accepts
every packet of the batch, so the accepted packets are the whole input,
not a strict (proper) prefix of it. -/
theorem claim_C3_strict_prefix_counterexample :
    (sfc_ef10_xmit_pkts demoC3 [pkt4]).map Prod.snd = some 1 ∧
    [pkt4].length = 1 := by
  constructor
  · rfl
  · rfl

/-- CLAIM C3 (amended): a transmit call accepts the first n packets of
the batch for some n at most the batch length (a prefix, but not always a
strict one: a batch that fits is accepted whole); the descriptor writes
are exactly those of the accepted prefix laid out back to back (so a
packet is written entirely or not at all), and each accepted packet's
buffer is attached to the shadow slot of its last descriptor. -/
theorem claim_C3_prefix_admission {s : Txq} {pkts : List Pkt} {s2 : Txq} {n : Nat}
    (h : sfc_ef10_xmit_pkts s pkts = some (s2, n))
    (hadded : s.added < M) (hcm : s.completed < M)
    (hinv : usub s.added s.completed ≤ SFC_EF10_TXQ_LIMIT (s.ptr_mask + 1))
    (hEv : evOk s) :
    n ≤ pkts.length ∧
    s2.dlog = s.dlog ++ specBatchLog (pkts.take n) s.added s.ptr_mask ∧
    s2.slog = s.slog ++ specBatchShadow (pkts.take n) s.added s.ptr_mask := by
  obtain ⟨c1, _, _, _, _, _, _, c8, c9, _⟩ := xmit_spec h hadded hcm hinv hEv
  exact ⟨c1, c8, c9⟩

theorem claim_C3_prefix_admission_witness :
    ∃ s2 n, sfc_ef10_xmit_pkts demoC3 [pkt4] = some (s2, n) ∧
      n ≤ [pkt4].length ∧
      s2.dlog = demoC3.dlog
        ++ specBatchLog (List.take n [pkt4]) demoC3.added demoC3.ptr_mask ∧
      s2.slog = demoC3.slog
        ++ specBatchShadow (List.take n [pkt4]) demoC3.added demoC3.ptr_mask := by
  have hs : (sfc_ef10_xmit_pkts demoC3 [pkt4]).isSome = true := by rfl
  rcases hx : sfc_ef10_xmit_pkts demoC3 [pkt4] with _ | ⟨s2, n⟩
  · rw [hx] at hs
    cases hs
  · exact ⟨s2, n, rfl,
      claim_C3_prefix_admission hx (by decide) (by decide) (by decide) evOk_demoC3⟩

/-- CLAIM C4 counterexample: a call that flushes mid batch to reap space
and then pushes again at the end writes the doorbell twice: on a ring of
32 with a completion for index 3 queued, two four segment packets produce
two doorbell writes in one call. -/
theorem claim_C4_single_doorbell_counterexample :
    (sfc_ef10_xmit_pkts demoC4 [pkt4, pkt4]).map
      (fun r => (r.1.dbell.length, r.2)) = some (2, 2) := by
  rfl

/-- CLAIM C4 (amended): a transmit call writes the doorbell at most twice
(once mid loop when a packet does not fit and descriptors are already
pending, once after the loop); if it writes it at all then at least one
descriptor was appended, and if it writes none then the producer counter
is unchanged. -/
theorem claim_C4_doorbell_discipline {s : Txq} {pkts : List Pkt} {s2 : Txq} {n : Nat}
    (h : sfc_ef10_xmit_pkts s pkts = some (s2, n))
    (hadded : s.added < M) (hcm : s.completed < M)
    (hinv : usub s.added s.completed ≤ SFC_EF10_TXQ_LIMIT (s.ptr_mask + 1))
    (hEv : evOk s) :
    ∃ dl, s2.dbell = s.dbell ++ dl ∧ dl.length ≤ 2 ∧
      (dl = [] → s2.added = s.added) ∧
      (dl ≠ [] → 1 ≤ segsSum (pkts.take n)) := by
  obtain ⟨_, _, _, _, _, _, _, _, _, hdb⟩ := xmit_spec h hadded hcm hinv hEv
  exact hdb

theorem claim_C4_doorbell_discipline_witness :
    ∃ s2 n, sfc_ef10_xmit_pkts demoC3 [pkt4] = some (s2, n) ∧
      ∃ dl, s2.dbell = demoC3.dbell ++ dl ∧ dl.length ≤ 2 ∧
        (dl = [] → s2.added = demoC3.added) ∧
        (dl ≠ [] → 1 ≤ segsSum (List.take n [pkt4])) := by
  have hs : (sfc_ef10_xmit_pkts demoC3 [pkt4]).isSome = true := by rfl
  rcases hx : sfc_ef10_xmit_pkts demoC3 [pkt4] with _ | ⟨s2, n⟩
  · rw [hx] at hs
    cases hs
  · exact ⟨s2, n, rfl,
      claim_C4_doorbell_discipline hx (by decide) (by decide) (by decide) evOk_demoC3⟩

/-- The continuation bit of a built descriptor is the negation of the end
of packet flag, for any address and length. -/
theorem descCont_create (a l : Nat) (eop : Bool) :
    descCont (sfc_ef10_tx_qdesc_dma_create a l eop) = if eop then 0 else 1 := by
  unfold descCont sfc_ef10_tx_qdesc_dma_create
  have hA : a % 2 ^ 48 < 2 ^ 48 := Nat.mod_lt _ (by norm_num)
  have hL : l % 2 ^ 14 < 2 ^ 14 := Nat.mod_lt _ (by norm_num)
  have hor1 : a % 2 ^ 48 ||| (l % 2 ^ 14) <<< 48
      = 2 ^ 48 * (l % 2 ^ 14) + a % 2 ^ 48 := by
    rw [Nat.shiftLeft_eq, Nat.mul_comm, Nat.or_comm]
    exact (Nat.mul_add_lt_is_or hA _).symm
  have hfit : 2 ^ 48 * (l % 2 ^ 14) + a % 2 ^ 48 < 2 ^ 62 := by
    have hm : 2 ^ 48 * (l % 2 ^ 14) ≤ 2 ^ 48 * (2 ^ 14 - 1) :=
      Nat.mul_le_mul_left _ (by omega)
    omega
  rw [hor1]
  cases eop with
  | true =>
    have hc1 : (if (true : Bool) = true then (0 : Nat) else 1) = 0 := rfl
    rw [hc1]
    have h62 : (0 : Nat) <<< 62 = 0 := by
      rw [Nat.shiftLeft_eq, Nat.zero_mul]
    rw [h62, Nat.or_zero, Nat.shiftRight_eq_div_pow]
    omega
  | false =>
    have hc1 : (if (false : Bool) = true then (0 : Nat) else 1) = 1 := rfl
    rw [hc1]
    have h62 : (1 : Nat) <<< 62 = 2 ^ 62 := by
      rw [Nat.shiftLeft_eq, Nat.one_mul]
    rw [h62]
    have hor2 : 2 ^ 48 * (l % 2 ^ 14) + a % 2 ^ 48 ||| 2 ^ 62
        = 2 ^ 62 + (2 ^ 48 * (l % 2 ^ 14) + a % 2 ^ 48) := by
      rw [Nat.or_comm]
      have hx := Nat.mul_add_lt_is_or hfit 1
      rw [Nat.mul_one] at hx
      exact hx.symm
    rw [hor2, Nat.shiftRight_eq_div_pow]
    omega

/-- The code writes exactly one descriptor per segment. -/
theorem specPktDescs_length (p : List Seg) : ∀ (pl a m : Nat),
    (specPktDescs p pl a m).length = p.length := by
  induction p with
  | nil =>
    intro pl a m
    rfl
  | cons sg rest ih =>
    intro pl a m
    simp only [specPktDescs, List.length_cons, ih]

/-- With positive segment lengths and a total below the modulus, the
descriptors of a packet carry continuation bit one everywhere except the
last, where it is zero. -/
theorem specPktDescs_cont (p : Pkt) : ∀ (a m : Nat), p ≠ [] →
    (∀ sg, sg ∈ p → 0 < sg.len) → pktLen p < M →
    (specPktDescs p (u32 (pktLen p)) a m).map (fun d => descCont d.2)
      = List.replicate (p.length - 1) 1 ++ [0] := by
  induction p with
  | nil =>
    intro a m hne _ _
    exact absurd rfl hne
  | cons sg rest ih =>
    intro a m _ hpos hlt
    have hplen : pktLen (sg :: rest) = sg.len + pktLen rest := by
      simp [pktLen]
    rw [hplen] at hlt
    have hu : u32 (pktLen (sg :: rest)) = sg.len + pktLen rest := by
      rw [hplen]
      exact u32_eq_of_lt hlt
    have hrem : usub (sg.len + pktLen rest) sg.len = pktLen rest := by
      unfold usub M
      unfold M at hlt
      omega
    rw [hu]
    simp only [specPktDescs, hrem, List.map_cons, descCont_create]
    cases rest with
    | nil =>
      simp [specPktDescs, pktLen]
    | cons r rs =>
      have hrpos : 0 < pktLen (r :: rs) := by
        have h1 : 0 < r.len := hpos r (by simp)
        simp only [pktLen, List.map_cons, List.sum_cons]
        omega
      have hde : (decide (pktLen (r :: rs) = 0)) = false :=
        decide_eq_false (by omega)
      rw [hde]
      have hr32 : pktLen (r :: rs) = u32 (pktLen (r :: rs)) :=
        (u32_eq_of_lt (by omega)).symm
      rw [hr32]
      rw [ih (u32 (a + 1)) m (by simp)
        (fun sg2 hsg2 => hpos sg2 (List.mem_cons_of_mem sg hsg2)) (by omega)]
      simp [List.replicate_succ]

/-- CLAIM C7 counterexample: a one segment packet of 100 bytes needs one
descriptor by the per segment ceiling rule of the spec, and one slot is
available, yet the call accepts nothing: the code budgets a fixed five
descriptors per segment instead of the ceiling. -/
theorem claim_C7_ceil_budget_counterexample :
    specRequiredDescs pkt1 = 1 ∧
    usub (SFC_EF10_TXQ_LIMIT (demoC7.ptr_mask + 1))
      (usub demoC7.added demoC7.completed) = 1 ∧
    (sfc_ef10_xmit_pkts demoC7 [pkt1]).map Prod.snd = some 0 := by
  refine ⟨by decide, by decide, ?_⟩
  rfl

/-- CLAIM C7 (amended): the admission test does not use the sum of per
segment ceilings: it reserves the segment count times the fixed per
segment maximum of five descriptors, and once a reap has already been
done in the call, the head packet is accepted exactly when that
overestimate fits the available space. On admission the code writes
exactly one descriptor per segment (the caller must have pre split
segments longer than the descriptor length field), with the continuation
flag set on every descriptor except the last one of the packet, where it
is clear. -/
theorem claim_C7_admission_budget (p : Pkt) (ps : List Pkt) (s : Txq)
    (added space : Nat) (out : LoopOut) (a m : Nat)
    (h : xmitLoop (p :: ps) s added space true = some out)
    (hne : p ≠ []) (hpos : ∀ sg, sg ∈ p → 0 < sg.len) (hlen : pktLen p < M) :
    (1 ≤ out.count ↔ p.length * SFC_EF10_TX_MBUF_SEG_DESCS_MAX ≤ space) ∧
    (specPktDescs p (u32 (pktLen p)) a m).length = p.length ∧
    (specPktDescs p (u32 (pktLen p)) a m).map (fun d => descCont d.2)
      = List.replicate (p.length - 1) 1 ++ [0] := by
  refine ⟨?_, specPktDescs_length p _ a m, specPktDescs_cont p a m hne hpos hlen⟩
  unfold xmitLoop at h
  by_cases hb : p.length * SFC_EF10_TX_MBUF_SEG_DESCS_MAX > space
  · rw [if_pos hb, if_pos rfl] at h
    have h2 : (⟨s, added, true, 0⟩ : LoopOut) = out := by injection h
    rw [← h2]
    have hc : (⟨s, added, true, 0⟩ : LoopOut).count = 0 := rfl
    rw [hc]
    constructor <;> intro hx <;> omega
  · rw [if_neg hb] at h
    dsimp only at h
    cases hrec : xmitLoop ps
        (setShadow (writeSegs p (u32 (pktLen p)) added s).1
          (usub (writeSegs p (u32 (pktLen p)) added s).2 1
            &&& (writeSegs p (u32 (pktLen p)) added s).1.ptr_mask) p)
        (writeSegs p (u32 (pktLen p)) added s).2
        (usub space (usub (writeSegs p (u32 (pktLen p)) added s).2 added)) true with
    | none =>
      rw [hrec] at h
      cases h
    | some o =>
      rw [hrec] at h
      have h2 : (⟨o.txq, o.added, o.reap_done, o.count + 1⟩ : LoopOut) = out := by
        injection h
      rw [← h2]
      have hc : (⟨o.txq, o.added, o.reap_done, o.count + 1⟩ : LoopOut).count
          = o.count + 1 := rfl
      rw [hc]
      constructor <;> intro hx <;> omega

theorem claim_C7_admission_budget_witness :
    ∃ out, xmitLoop [pkt1] demoC3 demoC3.added 22 true = some out ∧
      ((1 ≤ out.count ↔ pkt1.length * SFC_EF10_TX_MBUF_SEG_DESCS_MAX ≤ 22) ∧
       (specPktDescs pkt1 (u32 (pktLen pkt1)) 0 demoC3.ptr_mask).length
         = pkt1.length ∧
       (specPktDescs pkt1 (u32 (pktLen pkt1)) 0 demoC3.ptr_mask).map
           (fun d => descCont d.2)
         = List.replicate (pkt1.length - 1) 1 ++ [0]) := by
  have hs : (xmitLoop [pkt1] demoC3 demoC3.added 22 true).isSome = true := by rfl
  rcases hx : xmitLoop [pkt1] demoC3 demoC3.added 22 true with _ | out
  · rw [hx] at hs
    cases hs
  · exact ⟨out, rfl,
      claim_C7_admission_budget pkt1 [] demoC3 demoC3.added 22 out 0 demoC3.ptr_mask
        hx (by decide) (by decide) (by decide)⟩

theorem claim_C2_reap_batched_completion_witness :
    ∃ s2, sfc_ef10_tx_reap demoC2 = some s2 ∧
      s2.completed = u32 (demoC2.completed
        + (usub 3 (usub demoC2.completed 1) &&& demoC2.ptr_mask)) ∧
      (∀ j, j < usub 3 (usub demoC2.completed 1) &&& demoC2.ptr_mask →
        s2.sw_ring (u32 (demoC2.completed + j) &&& demoC2.ptr_mask) = none) ∧
      (∀ j, j < usub 3 (usub demoC2.completed 1) &&& demoC2.ptr_mask → ∀ m2,
        demoC2.sw_ring (u32 (demoC2.completed + j) &&& demoC2.ptr_mask) = some m2 →
        m2 ∈ s2.freed) :=
  claim_C2_reap_batched_completion demoC2 1 3 (by decide) (by decide) (by decide)
    (by decide) (by decide)
    (by
      intro j hj
      have hj0 : j = 0 := by omega
      subst hj0
      decide)
    (by decide) (by decide)

theorem claim_C5_foreign_event_exception_witness :
    sfc_ef10_tx_get_event demoC5 =
      (false, { demoC5 with flags := demoC5.flags ||| SFC_EF10_TXQ_EXCEPTION },
        demoC5.evq_hw_ring (demoC5.evq_read_ptr &&& demoC5.ptr_mask)) :=
  claim_C5_foreign_event_exception demoC5 (by decide) (by decide)

theorem claim_C8_reap_noop_witness : sfc_ef10_tx_reap demoC8 = some demoC8 :=
  claim_C8_reap_noop demoC8 (by decide) (by decide)

/-- CLAIM C9 counterexample: an address that needs more than the 48 bits
of the descriptor address field does not round trip: it is truncated, so
the claim is false without the address width restriction. -/
theorem claim_C9_addr_truncation_counterexample :
    descAddr (sfc_ef10_tx_qdesc_dma_create (2 ^ 48) 1 true) ≠ 2 ^ 48 ∧
    descAddr (sfc_ef10_tx_qdesc_dma_create (2 ^ 48) 1 true) = 0 := by
  refine ⟨?_, by decide⟩
  decide

theorem claim_C9_desc_roundtrip_witness :
    descAddr (sfc_ef10_tx_qdesc_dma_create 123456 1000 true) = 123456 ∧
    descByteCnt (sfc_ef10_tx_qdesc_dma_create 123456 1000 true) = 1000 ∧
    descTypeTag (sfc_ef10_tx_qdesc_dma_create 123456 1000 true) = 0 ∧
    descCont (sfc_ef10_tx_qdesc_dma_create 123456 1000 true)
      = (if (true : Bool) then 0 else 1) :=
  claim_C9_desc_roundtrip 123456 1000 true (by decide) (by decide)

theorem claim_C10_exception_keeps_progress_witness :
    ∃ s2, sfc_ef10_tx_reap demoC10 = some s2 ∧
      s2.completed = u32 (demoC10.completed + runDelta demoC10 1) ∧
      runDelta demoC10 1 = usub (ESF_DZ_TX_DESCR_INDX (evAt demoC10 (1 - 1)))
        (usub demoC10.completed 1) &&& demoC10.ptr_mask ∧
      (∀ j, j < runDelta demoC10 1 →
        s2.sw_ring (u32 (demoC10.completed + j) &&& demoC10.ptr_mask) = none) ∧
      (∀ j, j < runDelta demoC10 1 → ∀ m2,
        demoC10.sw_ring (u32 (demoC10.completed + j) &&& demoC10.ptr_mask)
          = some m2 → m2 ∈ s2.freed) ∧
      s2.flags = demoC10.flags ||| SFC_EF10_TXQ_EXCEPTION ∧
      s2.evq_read_ptr = u32 (demoC10.evq_read_ptr + 1) ∧
      (∀ j, j < 1 →
        s2.evq_hw_ring (u32 (demoC10.evq_read_ptr + j) &&& demoC10.ptr_mask)
          = EV_ABSENT) ∧
      s2.evq_hw_ring (u32 (demoC10.evq_read_ptr + 1) &&& demoC10.ptr_mask)
        = demoC10.evq_hw_ring (u32 (demoC10.evq_read_ptr + 1) &&& demoC10.ptr_mask) :=
  claim_C10_exception_keeps_progress demoC10 3 1 (by decide) (by decide) (by decide)
    (by decide) (by decide) (by decide) (by decide)
    (by
      intro j hj
      have hj0 : j = 0 := by omega
      subst hj0
      decide)
    (by decide) (by decide)

end SfcEf10
